import Mathlib

/-!
Credit-card validator: a shallow embedding of `main.go`.

Go strings are byte sequences, so a string is a list of bytes (`Fin 256`).
`len(s)` is the number of bytes, `s[i]` is a byte, `s[:k]` is `List.take`,
and `for _, r := range s` walks the UTF-8 decoding of the bytes.

Go's `int` is taken to be 64 bits wide (`strconv.IntSize = 64`).  The
functions of the Go standard library that `main.go` calls (`unicode.IsDigit`,
`unicode.IsSpace`, `strings.TrimSpace`, `strings.SplitN`, `strconv.Atoi`) are
embedded after their Go implementation, each in a namespace named after its
package.
-/

set_option maxRecDepth 100000

/-- A Go `byte`. -/
abbrev Byte := Fin 256

/-- A Go `string`: an immutable sequence of bytes. -/
abbrev Str := List Byte

/-! ## Writing string literals -/

/-- UTF-8 encoding of one code point, used only to write Go string literals. -/
def encodeRune (r : Nat) : Str :=
  if r < 0x80 then [Fin.ofNat r]
  else if r < 0x800 then [Fin.ofNat (0xC0 + r / 64), Fin.ofNat (0x80 + r % 64)]
  else if r < 0x10000 then
    [Fin.ofNat (0xE0 + r / 4096), Fin.ofNat (0x80 + r / 64 % 64), Fin.ofNat (0x80 + r % 64)]
  else
    [Fin.ofNat (0xF0 + r / 262144), Fin.ofNat (0x80 + r / 4096 % 64),
     Fin.ofNat (0x80 + r / 64 % 64), Fin.ofNat (0x80 + r % 64)]

/-- The bytes of a Go string literal (Go source files are UTF-8). -/
def str (s : String) : Str := s.data.flatMap (fun c => encodeRune c.toNat)

/-! ## Package `unicode/utf8` and the `range` loop over a string -/

namespace utf8

/-- The replacement rune `utf8.RuneError` (U+FFFD). -/
def RuneError : Nat := 0xFFFD

/-- A continuation byte: `locb <= b && b <= hicb`, that is `0x80..0xBF`. -/
def isCont (b : Byte) : Bool := 0x80 ≤ b.val && b.val ≤ 0xBF

/-- The function `utf8.DecodeRuneInString(s)`: the first rune of `s` and its width in bytes.
The empty string gives `(RuneError, 0)`, an invalid or truncated encoding gives
`(RuneError, 1)`.  Overlong encodings, surrogates and values above U+10FFFF are
invalid.  The runtime's `decoderune`, which the `range` loop calls, computes the
same rune and the same width.  `b & mask << k | ...` is written with `%`, `*`
and `+`, the or-ed bit fields being disjoint. -/
def DecodeRuneInString : Str → Nat × Nat
  | [] => (RuneError, 0)
  | b0 :: rest =>
    if b0.val < 0x80 then (b0.val, 1)
    else if 0xC0 ≤ b0.val ∧ b0.val < 0xE0 then
      match rest with
      | b1 :: _ =>
        if isCont b1 then
          let r := b0.val % 32 * 64 + b1.val % 64
          if 0x7F < r then (r, 2) else (RuneError, 1)
        else (RuneError, 1)
      | [] => (RuneError, 1)
    else if 0xE0 ≤ b0.val ∧ b0.val < 0xF0 then
      match rest with
      | b1 :: b2 :: _ =>
        if isCont b1 && isCont b2 then
          let r := b0.val % 16 * 4096 + b1.val % 64 * 64 + b2.val % 64
          if 0x7FF < r ∧ ¬ (0xD800 ≤ r ∧ r ≤ 0xDFFF) then (r, 3) else (RuneError, 1)
        else (RuneError, 1)
      | _ => (RuneError, 1)
    else if 0xF0 ≤ b0.val ∧ b0.val < 0xF8 then
      match rest with
      | b1 :: b2 :: b3 :: _ =>
        if isCont b1 && isCont b2 && isCont b3 then
          let r := b0.val % 8 * 262144 + b1.val % 64 * 4096 + b2.val % 64 * 64 + b3.val % 64
          if 0xFFFF < r ∧ r ≤ 0x10FFFF then (r, 4) else (RuneError, 1)
        else (RuneError, 1)
      | _ => (RuneError, 1)
    else (RuneError, 1)

/-- The function `utf8.RuneStart(b)`: `b` is not a continuation byte. -/
def RuneStart (b : Byte) : Bool := !isCont b

end utf8

/-- The runes of `for _, r := range s`, in order.  The first argument counts
the bytes still to be stepped over because they belong to the rune decoded
last. -/
def rangeRunes : Nat → Str → List Nat
  | _, [] => []
  | 0, b :: rest =>
    (utf8.DecodeRuneInString (b :: rest)).1 ::
      rangeRunes ((utf8.DecodeRuneInString (b :: rest)).2 - 1) rest
  | k + 1, _ :: rest => rangeRunes k rest

/-! ## Package `unicode` -/

namespace unicode

/-- The table `unicode.Nd` (decimal digits) above Latin-1, as inclusive ranges
(Unicode 15.0.0, the version of the tables of Go 1.21 and later). -/
def NdRanges : List (Nat × Nat) :=
  [(0x0660, 0x0669), (0x06F0, 0x06F9), (0x07C0, 0x07C9), (0x0966, 0x096F),
   (0x09E6, 0x09EF), (0x0A66, 0x0A6F), (0x0AE6, 0x0AEF), (0x0B66, 0x0B6F),
   (0x0BE6, 0x0BEF), (0x0C66, 0x0C6F), (0x0CE6, 0x0CEF), (0x0D66, 0x0D6F),
   (0x0DE6, 0x0DEF), (0x0E50, 0x0E59), (0x0ED0, 0x0ED9), (0x0F20, 0x0F29),
   (0x1040, 0x1049), (0x1090, 0x1099), (0x17E0, 0x17E9), (0x1810, 0x1819),
   (0x1946, 0x194F), (0x19D0, 0x19D9), (0x1A80, 0x1A89), (0x1A90, 0x1A99),
   (0x1B50, 0x1B59), (0x1BB0, 0x1BB9), (0x1C40, 0x1C49), (0x1C50, 0x1C59),
   (0xA620, 0xA629), (0xA8D0, 0xA8D9), (0xA900, 0xA909), (0xA9D0, 0xA9D9),
   (0xA9F0, 0xA9F9), (0xAA50, 0xAA59), (0xABF0, 0xABF9), (0xFF10, 0xFF19),
   (0x104A0, 0x104A9), (0x10D30, 0x10D39), (0x11066, 0x1106F), (0x110F0, 0x110F9),
   (0x11136, 0x1113F), (0x111D0, 0x111D9), (0x112F0, 0x112F9), (0x11450, 0x11459),
   (0x114D0, 0x114D9), (0x11650, 0x11659), (0x116C0, 0x116C9), (0x11730, 0x11739),
   (0x118E0, 0x118E9), (0x11950, 0x11959), (0x11C50, 0x11C59), (0x11D50, 0x11D59),
   (0x11DA0, 0x11DA9), (0x11F50, 0x11F59), (0x16A60, 0x16A69), (0x16AC0, 0x16AC9),
   (0x16B50, 0x16B59), (0x1D7CE, 0x1D7FF), (0x1E140, 0x1E149), (0x1E2F0, 0x1E2F9),
   (0x1E4F0, 0x1E4F9), (0x1E950, 0x1E959), (0x1FBF0, 0x1FBF9)]

/-- The function `unicode.IsDigit(r)`: up to `MaxLatin1` only `'0'..'9'`, above it the
table `Nd`. -/
def IsDigit (r : Nat) : Bool :=
  if r ≤ 0xFF then 0x30 ≤ r && r ≤ 0x39
  else NdRanges.any (fun p => p.1 ≤ r && r ≤ p.2)

/-- The function `unicode.IsSpace(r)`: in Latin-1 the runes `\t \n \v \f \r`, space, U+0085
and U+00A0; above it the table `White_Space`. -/
def IsSpace (r : Nat) : Bool :=
  if r ≤ 0xFF then
    r = 0x09 || r = 0x0A || r = 0x0B || r = 0x0C || r = 0x0D || r = 0x20 ||
      r = 0x85 || r = 0xA0
  else
    r = 0x1680 || (0x2000 ≤ r && r ≤ 0x200A) || r = 0x2028 || r = 0x2029 ||
      r = 0x202F || r = 0x205F || r = 0x3000

end unicode

/-! ## Package `strconv` -/

namespace strconv

/-- The error of a failed conversion: `ErrSyntax` or `ErrRange`. -/
inductive NumError where
  | ErrSyntax
  | ErrRange
  deriving DecidableEq, Repr

/-- The constant `strconv.IntSize`. -/
def IntSize : Nat := 64

/-- The constant `maxUint64`. -/
def maxUint64 : Nat := 2 ^ 64 - 1

/-- The digit loop of `ParseUint(s, 10, 0)` over the bytes still to read, `n`
being the `uint64` accumulated so far.  `cutoff = maxUint64/10 + 1` and
`maxVal = 1<<64 - 1`.  A byte that is not a decimal digit is a syntax error
(a letter is a digit value of at least 10, which is not below the base). -/
def parseUintLoop : Str → Nat → Nat × Option NumError
  | [], n => (n, none)
  | c :: rest, n =>
    if 0x30 ≤ c.val ∧ c.val ≤ 0x39 then
      if n ≥ maxUint64 / 10 + 1 then (maxUint64, some .ErrRange)
      else
        let n10 := n * 10 % 2 ^ 64
        let n1 := (n10 + (c.val - 0x30)) % 2 ^ 64
        if n1 < n10 ∨ n1 > maxUint64 then (maxUint64, some .ErrRange)
        else parseUintLoop rest n1
    else (0, some .ErrSyntax)

/-- The function `strconv.ParseUint(s, 10, 0)`. -/
def ParseUint (s : Str) : Nat × Option NumError :=
  if s = [] then (0, some .ErrSyntax) else parseUintLoop s 0

/-- The part of `ParseInt` after the sign is picked off: `neg` is the sign and
`s` the rest. -/
def parseIntSigned (neg : Bool) (s : Str) : Int × Option NumError :=
  match ParseUint s with
  | (_, some .ErrSyntax) => (0, some .ErrSyntax)
  | (un, _) =>
    let cutoff : Nat := 2 ^ (IntSize - 1)
    if !neg && un ≥ cutoff then ((cutoff : Int) - 1, some .ErrRange)
    else if neg && un > cutoff then (-(cutoff : Int), some .ErrRange)
    else (if neg then -(un : Int) else (un : Int), none)

/-- The function `strconv.ParseInt(s, 10, 0)`. -/
def ParseInt (s : Str) : Int × Option NumError :=
  match s with
  | [] => (0, some .ErrSyntax)
  | c :: rest =>
    if c = 0x2B then parseIntSigned false rest
    else if c = 0x2D then parseIntSigned true rest
    else parseIntSigned false (c :: rest)

/-- The digit loop of the fast path of `Atoi`: `ch -= '0'` is byte arithmetic
and wraps around, `none` stands for the syntax error.  At most 18 bytes are
read, so `n` stays below `10^18` and the `int` does not overflow. -/
def atoiFastLoop : Str → Nat → Option Nat
  | [], n => some n
  | ch :: rest, n =>
    if (ch.val + 256 - 0x30) % 256 > 9 then none
    else atoiFastLoop rest (n * 10 + (ch.val + 256 - 0x30) % 256)

/-- The function `strconv.Atoi(s)`: the value and the error.  Strings of 1 to 18 bytes take
the fast path, the others go through `ParseInt(s, 10, 0)`. -/
def Atoi (s : Str) : Int × Option NumError :=
  match s with
  | [] => ParseInt s
  | s0 :: rest =>
    if s.length < 19 then
      let digits := if s0 = 0x2D ∨ s0 = 0x2B then rest else s
      if digits.length < 1 then (0, some .ErrSyntax)
      else
        match atoiFastLoop digits 0 with
        | none => (0, some .ErrSyntax)
        | some n => (if s0 = 0x2D then -(n : Int) else (n : Int), none)
    else ParseInt s

end strconv

/-! ## Package `strings` -/

namespace strings

/-- The table `asciiSpace`: `\t`, `\n`, `\v`, `\f`, `\r` and the space. -/
def asciiSpace (c : Byte) : Bool :=
  c = 0x09 || c = 0x0A || c = 0x0B || c = 0x0C || c = 0x0D || c = 0x20

/-- The loop of `indexFunc(s, f, truth)`, a `range` loop over the string: the
first argument counts the bytes still to be stepped over, the second is the
byte index `i`.  `none` stands for -1. -/
def indexFuncLoop (f : Nat → Bool) (truth : Bool) : Nat → Nat → Str → Option Nat
  | _, _, [] => none
  | 0, i, b :: rest =>
    if f (utf8.DecodeRuneInString (b :: rest)).1 = truth then some i
    else indexFuncLoop f truth ((utf8.DecodeRuneInString (b :: rest)).2 - 1) (i + 1) rest
  | k + 1, i, _ :: rest => indexFuncLoop f truth k (i + 1) rest

/-- The function `indexFunc(s, f, truth)`. -/
def indexFunc (s : Str) (f : Nat → Bool) (truth : Bool) : Option Nat :=
  indexFuncLoop f truth 0 0 s

/-- The function `strings.TrimLeftFunc(s, f)`. -/
def TrimLeftFunc (s : Str) (f : Nat → Bool) : Str :=
  match indexFunc s f false with
  | none => []
  | some i => s.drop i

/-- The backward scan of `DecodeLastRuneInString` for the start of the last
rune: `for start--; start >= lim; start-- { if RuneStart(s[start]) { break } }`
followed by `if start < 0 { start = 0 }`.  The second argument is `start + 1`
at the loop test, the result is the final `start`.  The loop body runs at most
three times (`start` goes from `end - 2` down to `lim >= end - 4`). -/
def lastRuneStart (s : Str) (lim : Nat) : Nat → Nat → Nat
  | 0, k => k - 1
  | fuel + 1, k =>
    if k = 0 then 0
    else if k - 1 < lim then k - 1
    else if utf8.RuneStart (s.getD (k - 1) 0) then k - 1
    else lastRuneStart s lim fuel (k - 1)

/-- The function `utf8.DecodeLastRuneInString(s)`: the last rune of `s` and its width.
`end - UTFMax` clipped at 0 is the truncated subtraction `s.length - 4`. -/
def DecodeLastRuneInString (s : Str) : Nat × Nat :=
  if s.length = 0 then (utf8.RuneError, 0)
  else if (s.getD (s.length - 1) 0).val < 0x80 then ((s.getD (s.length - 1) 0).val, 1)
  else
    let start := lastRuneStart s (s.length - 4) 4 (s.length - 1)
    let rs := utf8.DecodeRuneInString (s.drop start)
    if start + rs.2 ≠ s.length then (utf8.RuneError, 1) else rs

/-- The loop of `lastIndexFunc(s, f, truth)`: the string argument is the prefix
`s[0:i]`, the only part of `s` the loop reads.  Every iteration shortens the
prefix, so a first argument of at least its length never runs out.  `none`
stands for -1. -/
def lastIndexFuncLoop (f : Nat → Bool) (truth : Bool) : Nat → Str → Option Nat
  | 0, _ => none
  | fuel + 1, p =>
    if p.length = 0 then none
    else if f (DecodeLastRuneInString p).1 = truth then
      some (p.length - (DecodeLastRuneInString p).2)
    else lastIndexFuncLoop f truth fuel (p.take (p.length - (DecodeLastRuneInString p).2))

/-- The function `lastIndexFunc(s, f, truth)`. -/
def lastIndexFunc (s : Str) (f : Nat → Bool) (truth : Bool) : Option Nat :=
  lastIndexFuncLoop f truth s.length s

/-- The function `strings.TrimRightFunc(s, f)`. -/
def TrimRightFunc (s : Str) (f : Nat → Bool) : Str :=
  match lastIndexFunc s f false with
  | some i =>
    if (s.getD i 0).val ≥ 0x80 then s.take (i + (utf8.DecodeRuneInString (s.drop i)).2)
    else s.take (i + 1)
  | none => s.take 0

/-- The function `strings.TrimFunc(s, f)`. -/
def TrimFunc (s : Str) (f : Nat → Bool) : Str :=
  TrimRightFunc (TrimLeftFunc s f) f

/-- The second loop of `TrimSpace`, over `s[start:stop]` given in reverse:
trailing ASCII spaces are dropped, a non-ASCII byte hands over to
`TrimRightFunc`. -/
def trimSpaceStop : Str → Str
  | [] => []
  | c :: rev =>
    if c.val ≥ 0x80 then TrimRightFunc (c :: rev).reverse unicode.IsSpace
    else if asciiSpace c then trimSpaceStop rev
    else (c :: rev).reverse

/-- The first loop of `TrimSpace`, over `s[start:]`: leading ASCII spaces are
dropped, a non-ASCII byte hands over to `TrimFunc`. -/
def trimSpaceStart : Str → Str
  | [] => trimSpaceStop []
  | c :: rest =>
    if c.val ≥ 0x80 then TrimFunc (c :: rest) unicode.IsSpace
    else if asciiSpace c then trimSpaceStart rest
    else trimSpaceStop (c :: rest).reverse

/-- The function `strings.TrimSpace(s)`. -/
def TrimSpace (s : Str) : Str := trimSpaceStart s

/-- The function `strings.IndexByte(s, c)`, which is `strings.Index(s, sep)` for a
one-byte separator; `none` stands for -1. -/
def IndexByte : Str → Byte → Option Nat
  | [], _ => none
  | b :: rest, c => if b = c then some 0 else (IndexByte rest c).map (· + 1)

/-- The loop of `genSplit` for a one-byte separator and `sepSave = 0`: the
first argument is `n - i`, the number of cuts still allowed. -/
def genSplitLoop (sep : Byte) : Nat → Str → List Str
  | 0, s => [s]
  | k + 1, s =>
    match IndexByte s sep with
    | none => [s]
    | some m => s.take m :: genSplitLoop sep k (s.drop (m + 1))

/-- The function `strings.SplitN(s, sep, n)` for a one-byte separator and `n >= 0`. -/
def SplitN (s : Str) (sep : Byte) (n : Nat) : List Str :=
  if n = 0 then []
  else genSplitLoop sep ((if n > s.length + 1 then s.length + 1 else n) - 1) s

end strings

/-! ## `main.go` -/

/-- The struct `Bank`: a name and an inclusive BIN range. -/
structure Bank where
  Name : Str
  BinFrom : Int
  BinTo : Int
  deriving DecidableEq

/-- The loop of `validateInput` over the runes of the card number. -/
def validateInputLoop : List Nat → Bool
  | [] => true
  | r :: rs => if !unicode.IsDigit r then false else validateInputLoop rs

/-- The function `validateInput(cardNumber)`. -/
def validateInput (cardNumber : Str) : Bool :=
  if cardNumber.length < 13 || cardNumber.length > 19 then false
  else validateInputLoop (rangeRunes 0 cardNumber)

/-- The loop of `validateLuhn`: the first argument is `i + 1`, the number of
iterations left.  `cardNumber[i] - '0'` is byte arithmetic and wraps around.
The sum is at most `501 * len(cardNumber)`, far below `2^63`. -/
def validateLuhnLoop (cardNumber : Str) : Nat → Nat → Bool → Nat
  | 0, sum, _ => sum
  | i + 1, sum, double =>
    let digit := ((cardNumber.getD i 0).val + 256 - 0x30) % 256
    let digit := if double then (if digit * 2 > 9 then digit * 2 - 9 else digit * 2) else digit
    validateLuhnLoop cardNumber i (sum + digit) (!double)

/-- The function `validateLuhn(cardNumber)`. -/
def validateLuhn (cardNumber : Str) : Bool :=
  validateLuhnLoop cardNumber cardNumber.length 0 false % 10 == 0

/-- The function `extractBIN(cardNumber)`; the error of `Atoi` is dropped. -/
def extractBIN (cardNumber : Str) : Int :=
  if cardNumber.length < 6 then 0
  else (strconv.Atoi (cardNumber.take 6)).1

/-- The label returned when no range matches. -/
def unknownIssuer : Str := str "Неизвестный эмитент"

/-- The function `identifyBank(bin, banks)`. -/
def identifyBank (bin : Int) : List Bank → Str
  | [] => unknownIssuer
  | bank :: banks =>
    if bin ≥ bank.BinFrom && bin ≤ bank.BinTo then bank.Name
    else identifyBank bin banks

/-- The body of the scan loop of `loadBankData`: the table after the line
`text` (the value of `scanner.Text()`) is processed.  The errors of `Atoi` are
dropped. -/
def loadBankLine (banks : List Bank) (text : Str) : List Bank :=
  let line := strings.TrimSpace text
  if line = [] then banks
  else
    let parts := strings.SplitN line 0x2C 3
    if parts.length ≠ 3 then banks
    else
      banks ++ [{ Name := strings.TrimSpace (parts.getD 0 []),
                  BinFrom := (strconv.Atoi (strings.TrimSpace (parts.getD 1 []))).1,
                  BinTo := (strconv.Atoi (strings.TrimSpace (parts.getD 2 []))).1 }]

/-- The error a scanner reports when it stops (`scanner.Err()`). -/
inductive ScanError where
  | readFailed
  | tokenTooLong
  deriving DecidableEq

/-- The function `loadBankData` once the file is open, as a function of the lines the
scanner delivers and of the value `scanner.Err()` has when the scanner stops:
the table and the error returned.  No step of the loop body can fail. -/
def loadBankData (lines : List Str) (scanErr : Option ScanError) :
    List Bank × Option ScanError :=
  (lines.foldl loadBankLine [], scanErr)

/-! ## Auxiliary definitions for the proofs -/

/-- The value one iteration of the loop of `validateLuhn` adds for the byte
`b`, `double` being the flag at that iteration. -/
def luhnAdj (double : Bool) (b : Byte) : Nat :=
  if double then
    (if (b.val + 256 - 0x30) % 256 * 2 > 9 then (b.val + 256 - 0x30) % 256 * 2 - 9
     else (b.val + 256 - 0x30) % 256 * 2)
  else (b.val + 256 - 0x30) % 256

/-- The sum of the loop over a string given in reverse, from the flag
`double`. -/
def luhnRev : Str → Bool → Nat
  | [], _ => 0
  | b :: rest, double => luhnAdj double b + luhnRev rest (!double)

/-! ## Reference definitions, written after the specification -/

/-- The value of a digit character. -/
def digitValue (b : Byte) : Nat := b.val - 0x30

/-- A decimal digit character `'0'..'9'`. -/
def isAsciiDigit (b : Byte) : Bool := 0x30 ≤ b.val && b.val ≤ 0x39

/-- The contribution of the digit `d` at position `p` counted from the right,
starting at 0: unchanged at an even position, and at an odd position `2d` when
`2d <= 9` and `2d - 9` otherwise. -/
def luhnTerm (p d : Nat) : Nat :=
  if p % 2 = 0 then d else if 2 * d ≤ 9 then 2 * d else 2 * d - 9

/-- The reference Luhn total of a digit string. -/
def luhnReferenceTotal (s : Str) : Nat :=
  ((List.range s.length).map
    (fun p => luhnTerm p (digitValue (s.getD (s.length - 1 - p) 0)))).sum

/-- The table of the overlap example of the specification. -/
def overlapTable : List Bank :=
  [⟨str "BankA", 400000, 400999⟩, ⟨str "BankB", 400000, 450000⟩]

/-- Seven Arabic-Indic digits `١٢٣٤٥٦٢` (U+0661 .. U+0666, U+0662), two bytes
each. -/
def arabicIndicSample : Str :=
  [0xD9, 0xA1, 0xD9, 0xA2, 0xD9, 0xA3, 0xD9, 0xA4, 0xD9, 0xA5, 0xD9, 0xA6, 0xD9, 0xA2]

/-- Blank bytes: every byte is one of `asciiSpace` (spaces and tabs among
them). -/
def allBlank (w : Str) : Prop := ∀ c ∈ w, strings.asciiSpace c = true

instance (w : Str) : Decidable (allBlank w) := by
  unfold allBlank
  exact inferInstance

/-- The number a string of decimal digits denotes, continuing from `n`. -/
def digitsFrom (n : Nat) (ds : Str) : Nat :=
  ds.foldl (fun m c => 10 * m + digitValue c) n

/-- A non-empty string of decimal digits. -/
def isDigits (ds : Str) : Bool := !ds.isEmpty && ds.all isAsciiDigit

/-- The integer written by a decimal numeral: an optional sign `+` or `-`
followed by one or more decimal digits (leading zeros allowed); `none` when
the string is not such a numeral. -/
def decimalValue (A : Str) : Option Int :=
  match A with
  | [] => none
  | c :: rest =>
    if c = 0x2D then (if isDigits rest then some (-(digitsFrom 0 rest : Int)) else none)
    else if c = 0x2B then (if isDigits rest then some (digitsFrom 0 rest : Int) else none)
    else if isDigits (c :: rest) then some (digitsFrom 0 (c :: rest) : Int) else none

/-- A byte of a decimal numeral: a sign or a digit. -/
def isNumeralByte (x : Byte) : Bool := x = 0x2D || x = 0x2B || isAsciiDigit x

/-- The bound the loader stores for a field: the value `Atoi` returns for the
trimmed field, whatever the error. -/
def storedBound (field : Str) : Int := (strconv.Atoi (strings.TrimSpace field)).1

/-- A table line `n , A , B`: the three fields, each between two strings of
blanks. -/
def bankLine (n A B w0 w1 w2 w3 w4 w5 : Str) : Str :=
  (w0 ++ n ++ w1) ++ [0x2C] ++ (w2 ++ A ++ w3) ++ [0x2C] ++ (w4 ++ B ++ w5)

/-- The number of characters of a string: the number of runes a `range` loop
over it sees (`utf8.RuneCountInString`). -/
def runeCount (s : Str) : Nat := (rangeRunes 0 s).length

/-- The Luhn doubling of a digit value: `2d`, less 9 when it exceeds 9. -/
def luhnDouble (d : Nat) : Nat := if d * 2 > 9 then d * 2 - 9 else d * 2

/-- The text of a line before its first comma (the whole line when it has
none). -/
def beforeComma (s : Str) : Str := s.takeWhile (fun c => c != 0x2C)

/-- The text of a line after its first comma (empty when it has none). -/
def afterComma (s : Str) : Str := (s.dropWhile (fun c => c != 0x2C)).drop 1

/-- The record of a line, after the specification: a line that is non-empty
after trimming and has at least two commas is cut at its first two commas into
name, lower bound and upper bound, each trimmed; any other line has no
record. -/
def lineRecord (text : Str) : Option Bank :=
  if strings.TrimSpace text ≠ [] ∧ 2 ≤ (strings.TrimSpace text).count 0x2C then
    some { Name := strings.TrimSpace (beforeComma (strings.TrimSpace text)),
           BinFrom := storedBound (beforeComma (afterComma (strings.TrimSpace text))),
           BinTo := storedBound (afterComma (afterComma (strings.TrimSpace text))) }
  else none

/-! ## The interaction loop of `main` -/

/-- How an iteration of the loop ends: `again` for `continue` and for the end
of the body, `stop` for `break`. -/
inductive Control where
  | again
  | stop
  deriving DecidableEq

/-- The state of the loop: the bank table and the strings written to standard
output so far (oldest first). -/
structure LoopState where
  banks : List Bank
  printed : List Str
  deriving DecidableEq

/-- One `fmt.Print` or `fmt.Println`: the text is added to the output. -/
def LoopState.print (st : LoopState) (text : Str) : LoopState :=
  { st with printed := st.printed ++ [text] }

/-- The prompt `getUserInput` prints. -/
def promptMsg : Str := str "Введите номер карты (Enter для выхода): "

/-- The line printed before the loop ends. -/
def farewellMsg : Str := str "Программа завершена. Спасибо за использование! 👋\n"

/-- The line printed when `validateInput` rejects the input. -/
def formatMsg : Str :=
  str "❌ Ошибка: номер карты должен содержать только цифры (13–19 символов).\n"

/-- The line printed when `validateLuhn` rejects the input. -/
def luhnMsg : Str := str "❌ Ошибка: номер карты не прошёл проверку по алгоритму Луна.\n"

/-- The first line printed for a valid card number. -/
def validMsg : Str := str "✅ Номер карты валиден.\n"

/-- The line `fmt.Println("🏦 Банк:", bankName)` prints: the operands with a
space between them and a newline. -/
def bankMsg (bankName : Str) : Str := str "🏦 Банк:" ++ str " " ++ bankName ++ str "\n"

/-- The four functions the loop body calls.  Go evaluates a call where the
statement stands, and a call that does not return ends the program there:
`none` stands for a call that does not return, so that an iteration can
complete only when every call it evaluates returns. -/
structure Callees where
  validateInput : Str → Option Bool
  validateLuhn : Str → Option Bool
  extractBIN : Str → Option Int
  identifyBank : Int → List Bank → Option Str

/-- The callees of `main`: the four functions of `main.go`, which always
return. -/
def mainCallees : Callees where
  validateInput := fun cardNumber => some (validateInput cardNumber)
  validateLuhn := fun cardNumber => some (validateLuhn cardNumber)
  extractBIN := fun cardNumber => some (extractBIN cardNumber)
  identifyBank := fun bin banks => some (identifyBank bin banks)

/-- The function `getUserInput()`: `line` is what `ReadString` returns (the
empty string at the end of the input); the prompt is printed and the trimmed
line returned. -/
def getUserInput (line : Str) (st : LoopState) : Str × LoopState :=
  (strings.TrimSpace line, st.print promptMsg)

/-- The body of the loop of `main` after `getUserInput()` has returned
`cardNumber`, over the callees `fs`: statement by statement, each call
evaluated where it stands. -/
def loopBodyWith (fs : Callees) (cardNumber : Str) (st : LoopState) :
    Option (Control × LoopState) :=
  if cardNumber = [] then some (.stop, st.print farewellMsg)
  else
    match fs.validateInput cardNumber with
    | none => none
    | some valid =>
      if !valid then some (.again, st.print formatMsg)
      else
        match fs.validateLuhn cardNumber with
        | none => none
        | some luhn =>
          if !luhn then some (.again, st.print luhnMsg)
          else
            match fs.extractBIN cardNumber with
            | none => none
            | some bin =>
              match fs.identifyBank bin st.banks with
              | none => none
              | some bankName =>
                some (.again,
                  ((st.print validMsg).print (bankMsg bankName)).print (str "\n"))

/-- The body of the loop of `main`. -/
def loopBody (cardNumber : Str) (st : LoopState) : Option (Control × LoopState) :=
  loopBodyWith mainCallees cardNumber st

/-- The loop of `main` over the strings the successive calls of `ReadString`
return; when they are used up the input is at its end and `ReadString`
returns the empty string. -/
def mainLoopWith (fs : Callees) : List Str → LoopState → Option LoopState
  | [], st =>
    match loopBodyWith fs (getUserInput [] st).1 (getUserInput [] st).2 with
    | none => none
    | some (_, st') => some st'
  | line :: rest, st =>
    match loopBodyWith fs (getUserInput line st).1 (getUserInput line st).2 with
    | none => none
    | some (.stop, st') => some st'
    | some (.again, st') => mainLoopWith fs rest st'

/-- The loop of `main`. -/
def mainLoop (lines : List Str) (st : LoopState) : Option LoopState :=
  mainLoopWith mainCallees lines st

/-- Callees of which only `validateInput` returns. -/
def onlyValidateInput : Callees where
  validateInput := fun cardNumber => some (validateInput cardNumber)
  validateLuhn := fun _ => none
  extractBIN := fun _ => none
  identifyBank := fun _ _ => none

/-- Callees of which none returns. -/
def noCallee : Callees where
  validateInput := fun _ => none
  validateLuhn := fun _ => none
  extractBIN := fun _ => none
  identifyBank := fun _ _ => none

/-! # Theorems -/

/-! ## The loop of `validateLuhn` -/

theorem validateLuhnLoop_eq (s : Str) :
    ∀ (k sum : Nat) (double : Bool), k ≤ s.length →
      validateLuhnLoop s k sum double = sum + luhnRev (s.take k).reverse double := by
  intro k
  induction k with
  | zero => intro sum double _; simp [validateLuhnLoop, luhnRev]
  | succ i ih =>
    intro sum double hk
    have hi : i < s.length := by omega
    have hget : s.getD i 0 = s[i] := List.getD_eq_getElem _ _ hi
    rw [validateLuhnLoop, ih _ _ (by omega), List.take_succ]
    simp only [List.getElem?_eq_getElem hi, Option.toList_some, List.reverse_append,
      List.reverse_cons, List.reverse_nil, List.nil_append, List.singleton_append, luhnRev,
      hget, luhnAdj]
    cases double <;> simp <;> omega

theorem validateLuhn_eq (s : Str) :
    validateLuhn s = (luhnRev s.reverse false % 10 == 0) := by
  unfold validateLuhn
  rw [validateLuhnLoop_eq s s.length 0 false (Nat.le_refl _)]
  simp

theorem luhnAdj_digit (double : Bool) (b : Byte) (hb : isAsciiDigit b = true) :
    luhnAdj double b = luhnTerm (if double then 1 else 0) (digitValue b) := by
  simp only [isAsciiDigit, Bool.and_eq_true, decide_eq_true_eq] at hb
  have h1 : (b.val + 256 - 0x30) % 256 = b.val - 0x30 := by omega
  unfold luhnAdj luhnTerm digitValue
  rw [h1]
  generalize b.val - 0x30 = d
  cases double
  · simp
  · have h2 : ¬ (1 % 2 = 0) := by decide
    simp only [if_true, h2, if_false]
    split_ifs <;> omega

theorem luhnTerm_parity (p q d : Nat) (h : p % 2 = q % 2) : luhnTerm p d = luhnTerm q d := by
  unfold luhnTerm
  rw [h]

theorem referenceSum_eq_luhnRev (r : Str) :
    ∀ q : Nat, (∀ b ∈ r, isAsciiDigit b = true) →
      ((List.range r.length).map
        (fun p => luhnTerm (p + q) (digitValue (r.getD p 0)))).sum
        = luhnRev r (decide (q % 2 = 1)) := by
  induction r with
  | nil => intro q _; simp [luhnRev]
  | cons b rest ih =>
    intro q hd
    have hb : isAsciiDigit b = true := hd b (List.mem_cons_self _ _)
    have hrest : ∀ c ∈ rest, isAsciiDigit c = true :=
      fun c hc => hd c (List.mem_cons_of_mem _ hc)
    have key := ih (q + 1) hrest
    rw [List.length_cons, List.range_succ_eq_map, List.map_cons, List.sum_cons, List.map_map,
      luhnRev, luhnAdj_digit _ _ hb]
    have e1 : luhnTerm (0 + q) (digitValue ((b :: rest).getD 0 0))
        = luhnTerm (if decide (q % 2 = 1) = true then 1 else 0) (digitValue b) := by
      apply luhnTerm_parity
      by_cases hq : q % 2 = 1 <;> simp [hq]; omega
    have e2 : ((fun p => luhnTerm (p + q) (digitValue ((b :: rest).getD p 0))) ∘ Nat.succ)
        = (fun p => luhnTerm (p + (q + 1)) (digitValue (rest.getD p 0))) := by
      funext p
      simp only [Function.comp, Nat.succ_eq_add_one, List.getD_cons_succ]
      apply luhnTerm_parity
      omega
    have e3 : (!decide (q % 2 = 1)) = decide ((q + 1) % 2 = 1) := by
      by_cases hq : q % 2 = 1
      · have : ¬ ((q + 1) % 2 = 1) := by omega
        simp [hq, this]
      · have : (q + 1) % 2 = 1 := by omega
        simp [hq, this]
    rw [e1, e2, key, e3]

theorem luhnReferenceTotal_eq (s : Str) (hd : ∀ b ∈ s, isAsciiDigit b = true) :
    luhnReferenceTotal s = luhnRev s.reverse false := by
  have hr : ∀ b ∈ s.reverse, isAsciiDigit b = true := fun b hb => hd b (List.mem_reverse.mp hb)
  have key := referenceSum_eq_luhnRev s.reverse 0 hr
  simp only [List.length_reverse, Nat.add_zero] at key
  have h01 : decide (0 % 2 = 1) = false := by decide
  rw [h01] at key
  rw [← key]
  unfold luhnReferenceTotal
  congr 1
  apply List.map_congr_left
  intro p hp
  have hp' : p < s.length := List.mem_range.mp hp
  congr 2
  rw [List.getD_eq_getElem?_getD, List.getD_eq_getElem?_getD,
    List.getElem?_reverse hp']

/-! ## Replacing one byte of the reversed string -/

theorem luhnRev_append_cons (pre : Str) :
    ∀ double : Bool, ∃ flag : Bool, ∀ (x : Byte) (post : Str),
      luhnRev (pre ++ x :: post) double
        = luhnRev pre double + luhnAdj flag x + luhnRev post (!flag) := by
  induction pre with
  | nil => intro double; exact ⟨double, fun x post => by simp [luhnRev]⟩
  | cons b rest ih =>
    intro double
    obtain ⟨flag, hflag⟩ := ih (!double)
    refine ⟨flag, fun x post => ?_⟩
    rw [List.cons_append, luhnRev, hflag, luhnRev]
    omega

theorem luhnAdj_lt (flag : Bool) (b : Byte) (hb : isAsciiDigit b = true) :
    luhnAdj flag b < 10 := by
  simp only [isAsciiDigit, Bool.and_eq_true, decide_eq_true_eq] at hb
  have h1 : (b.val + 256 - 0x30) % 256 = b.val - 0x30 := by omega
  unfold luhnAdj
  rw [h1]
  cases flag
  · simp; omega
  · simp only [if_true]
    split_ifs <;> omega

theorem luhnAdj_injective (flag : Bool) (b c : Byte) (hb : isAsciiDigit b = true)
    (hc : isAsciiDigit c = true) (h : luhnAdj flag b = luhnAdj flag c) : b = c := by
  simp only [isAsciiDigit, Bool.and_eq_true, decide_eq_true_eq] at hb hc
  have h1 : (b.val + 256 - 0x30) % 256 = b.val - 0x30 := by omega
  have h2 : (c.val + 256 - 0x30) % 256 = c.val - 0x30 := by omega
  unfold luhnAdj at h
  rw [h1, h2] at h
  apply Fin.ext
  cases flag
  · simp at h; omega
  · simp only [if_true] at h
    split_ifs at h <;> omega

theorem luhnRev_digits_change (pre post : Str) (x c : Byte) (double : Bool)
    (hx : isAsciiDigit x = true) (hc : isAsciiDigit c = true) (hne : c ≠ x)
    (h : luhnRev (pre ++ x :: post) double % 10 = 0) :
    luhnRev (pre ++ c :: post) double % 10 ≠ 0 := by
  obtain ⟨flag, hflag⟩ := luhnRev_append_cons pre double
  rw [hflag] at h
  rw [hflag]
  intro h2
  have hlt1 := luhnAdj_lt flag x hx
  have hlt2 := luhnAdj_lt flag c hc
  have heq : luhnAdj flag c = luhnAdj flag x := by omega
  exact hne (luhnAdj_injective flag c x hc hx heq)

/-! ## The claims on `validateLuhn` -/

/-- C2: for every string `s` made only of the characters `'0'..'9'` (non-empty
or not), `validateLuhn s` is true exactly when the reference Luhn total of the
specification is divisible by 10. -/
theorem validateLuhn_iff_reference (s : Str) (hd : ∀ b ∈ s, isAsciiDigit b = true) :
    validateLuhn s = true ↔ luhnReferenceTotal s % 10 = 0 := by
  rw [validateLuhn_eq, luhnReferenceTotal_eq s hd]
  simp

/-- C2, witness: `4539578763621486` is a digit string, its reference total is
divisible by 10, and `validateLuhn` accepts it. -/
theorem validateLuhn_iff_reference_witness :
    (∀ b ∈ str "4539578763621486", isAsciiDigit b = true) ∧
      luhnReferenceTotal (str "4539578763621486") % 10 = 0 ∧
      validateLuhn (str "4539578763621486") = true :=
  ⟨by decide, by decide,
    (validateLuhn_iff_reference (str "4539578763621486") (by decide)).mpr (by decide)⟩

/-- C3: single-digit error detection.  For every string `s` of characters
`'0'..'9'` that `validateLuhn` accepts, every position `i` of `s` and every
digit character `c` different from the one at position `i`, `validateLuhn`
rejects `s` with position `i` replaced by `c`. -/
theorem validateLuhn_single_digit_error (s : Str) (i : Nat) (c : Byte)
    (hd : ∀ b ∈ s, isAsciiDigit b = true) (hv : validateLuhn s = true)
    (hi : i < s.length) (hc : isAsciiDigit c = true) (hne : c ≠ s.getD i 0) :
    validateLuhn (s.set i c) = false := by
  have hget : s.getD i 0 = s[i] := List.getD_eq_getElem _ _ hi
  rw [hget] at hne
  have hx : isAsciiDigit s[i] = true := hd _ (List.getElem_mem _)
  have hs : s = s.take i ++ s[i] :: s.drop (i + 1) := by
    rw [List.getElem_cons_drop s i hi, List.take_append_drop]
  have hset : s.set i c = s.take i ++ c :: s.drop (i + 1) := by
    rw [List.set_eq_take_append_cons_drop, if_pos hi]
  rw [validateLuhn_eq] at hv
  rw [validateLuhn_eq, hset]
  rw [hs] at hv
  simp only [List.reverse_append, List.reverse_cons, List.append_assoc, List.singleton_append,
    beq_iff_eq] at hv
  simp only [List.reverse_append, List.reverse_cons, List.append_assoc, List.singleton_append]
  have key := luhnRev_digits_change (s.drop (i + 1)).reverse (s.take i).reverse s[i] c false
    hx hc hne hv
  simpa using key

/-- C3, witness: in the accepted number `4539578763621486` the digit at
position 0 is replaced by `5`, and the result is rejected. -/
theorem validateLuhn_single_digit_error_witness :
    validateLuhn (str "4539578763621486") = true ∧
      validateLuhn ((str "4539578763621486").set 0 0x35) = false :=
  ⟨by decide,
    validateLuhn_single_digit_error (str "4539578763621486") 0 0x35 (by decide) (by decide)
      (by decide) (by decide) (by decide)⟩

/-! ## The claims on `validateInput` -/

/-- C1, the code at a failing input: the string `١٢٣٤٥٦٢` has 7 characters, none
of them in `'0'..'9'`, and 14 bytes; the `range` loop sees seven runes that
`unicode.IsDigit` accepts, and `validateInput` returns true. -/
theorem validateInput_accepts_arabicIndic :
    str "١٢٣٤٥٦٢" = arabicIndicSample ∧
      arabicIndicSample.length = 14 ∧
      rangeRunes 0 arabicIndicSample
        = [0x661, 0x662, 0x663, 0x664, 0x665, 0x666, 0x662] ∧
      (∀ b ∈ arabicIndicSample, isAsciiDigit b = false) ∧
      validateInput arabicIndicSample = true := by
  refine ⟨by decide, by decide, by decide, by decide, by decide⟩

/-! ## The claims on `identifyBank` -/

/-- C4: when some record of the table holds the BIN `b`, `identifyBank` returns
the name of the record of smallest index among those whose inclusive range
`[BinFrom, BinTo]` holds `b`. -/
theorem identifyBank_first_match (b : Int) (t : List Bank)
    (h : ∃ r ∈ t, r.BinFrom ≤ b ∧ b ≤ r.BinTo) :
    ∃ (i : Nat) (r : Bank), t[i]? = some r ∧ (r.BinFrom ≤ b ∧ b ≤ r.BinTo) ∧
      (∀ (j : Nat) (q : Bank), j < i → t[j]? = some q → ¬ (q.BinFrom ≤ b ∧ b ≤ q.BinTo)) ∧
      identifyBank b t = r.Name := by
  induction t with
  | nil => obtain ⟨r, hr, _⟩ := h; simp at hr
  | cons bank banks ih =>
    by_cases hb : bank.BinFrom ≤ b ∧ b ≤ bank.BinTo
    · refine ⟨0, bank, by simp, hb, ?_, ?_⟩
      · intro j q hj; omega
      · simp [identifyBank, hb]
    · have h2 : ∃ r ∈ banks, r.BinFrom ≤ b ∧ b ≤ r.BinTo := by
        obtain ⟨r, hr, hin⟩ := h
        rcases List.mem_cons.mp hr with rfl | hr
        · exact absurd hin hb
        · exact ⟨r, hr, hin⟩
      obtain ⟨i, r, hi, hin, hmin, hname⟩ := ih h2
      refine ⟨i + 1, r, by simpa using hi, hin, ?_, ?_⟩
      · intro j q hj hq
        cases j with
        | zero =>
          simp at hq
          rw [← hq]
          exact hb
        | succ j => exact hmin j q (by omega) (by simpa using hq)
      · have hb2 : ¬ (bank.BinFrom ≤ b ∧ b ≤ bank.BinTo) := hb
        rw [identifyBank]
        simp only [ge_iff_le, Bool.and_eq_true, decide_eq_true_eq, hb2, if_false]
        exact hname

/-- C4, witness: with the table `[("BankA",400000,400999),
("BankB",400000,450000)]` and the BIN 400500, both ranges hold the BIN and the
result is `"BankA"`. -/
theorem identifyBank_first_match_witness :
    (∃ r ∈ overlapTable, r.BinFrom ≤ 400500 ∧ (400500 : Int) ≤ r.BinTo) ∧
      (∃ (i : Nat) (r : Bank), overlapTable[i]? = some r ∧
        (r.BinFrom ≤ 400500 ∧ (400500 : Int) ≤ r.BinTo) ∧
        (∀ (j : Nat) (q : Bank), j < i → overlapTable[j]? = some q →
          ¬ (q.BinFrom ≤ 400500 ∧ (400500 : Int) ≤ q.BinTo)) ∧
        identifyBank 400500 overlapTable = r.Name) ∧
      identifyBank 400500 overlapTable = str "BankA" :=
  ⟨by decide, identifyBank_first_match 400500 overlapTable (by decide), by decide⟩

/-- C5: when no record of the table (the empty table included) holds the BIN
`b`, `identifyBank` returns the label `"Неизвестный эмитент"`. -/
theorem identifyBank_no_match (b : Int) (t : List Bank)
    (h : ∀ r ∈ t, ¬ (r.BinFrom ≤ b ∧ b ≤ r.BinTo)) :
    identifyBank b t = str "Неизвестный эмитент" := by
  induction t with
  | nil => rfl
  | cons bank banks ih =>
    have hb : ¬ (bank.BinFrom ≤ b ∧ b ≤ bank.BinTo) := h bank (List.mem_cons_self _ _)
    rw [identifyBank]
    simp only [ge_iff_le, Bool.and_eq_true, decide_eq_true_eq, hb, if_false]
    exact ih (fun r hr => h r (List.mem_cons_of_mem _ hr))

/-- C5, witness: no range of the overlap table holds the BIN 999999, and the
answer is the unknown-issuer label. -/
theorem identifyBank_no_match_witness :
    (∀ r ∈ overlapTable, ¬ (r.BinFrom ≤ 999999 ∧ (999999 : Int) ≤ r.BinTo)) ∧
      identifyBank 999999 overlapTable = str "Неизвестный эмитент" :=
  ⟨by decide, identifyBank_no_match 999999 overlapTable (by decide)⟩

/-! ## UTF-8 decoding -/

theorem isCont_of_ascii (c : Byte) (hc : c.val < 0x80) : utf8.isCont c = false := by
  simp only [utf8.isCont, Bool.and_eq_false_imp, decide_eq_true_eq, decide_eq_false_iff_not]
  omega

theorem decodeRune_ascii (c : Byte) (t : Str) (hc : c.val < 0x80) :
    utf8.DecodeRuneInString (c :: t) = (c.val, 1) := by
  simp [utf8.DecodeRuneInString, hc]

theorem decodeRune_size_le (s : Str) : (utf8.DecodeRuneInString s).2 ≤ s.length := by
  rcases s with _ | ⟨b0, _ | ⟨b1, _ | ⟨b2, _ | ⟨b3, r⟩⟩⟩⟩ <;>
    simp only [utf8.DecodeRuneInString, List.length_cons, List.length_nil] <;>
    (try split_ifs) <;> simp

theorem decodeRune_size_pos (b : Byte) (rest : Str) :
    1 ≤ (utf8.DecodeRuneInString (b :: rest)).2 := by
  rcases rest with _ | ⟨b1, _ | ⟨b2, _ | ⟨b3, r⟩⟩⟩ <;>
    simp only [utf8.DecodeRuneInString] <;>
    split_ifs <;> simp

theorem decodeRune_append_ascii (x : Str) (c : Byte) (t : Str) (hx : x ≠ [])
    (hc : c.val < 0x80) :
    utf8.DecodeRuneInString (x ++ c :: t) = utf8.DecodeRuneInString x := by
  have hcont := isCont_of_ascii c hc
  rcases x with _ | ⟨b0, _ | ⟨b1, _ | ⟨b2, _ | ⟨b3, r⟩⟩⟩⟩
  · exact absurd rfl hx
  · rcases t with _ | ⟨t0, _ | ⟨t1, t2⟩⟩ <;>
      simp [utf8.DecodeRuneInString, hcont]
  · rcases t with _ | ⟨t0, t1⟩ <;>
      simp [utf8.DecodeRuneInString, hcont]
  · simp [utf8.DecodeRuneInString, hcont]
  · simp [utf8.DecodeRuneInString]

/-! ## `TrimLeftFunc` -/

theorem indexFuncLoop_skip (f : Nat → Bool) (truth : Bool) (s : Str) :
    ∀ k i : Nat, strings.indexFuncLoop f truth k i s
      = strings.indexFuncLoop f truth 0 (i + k) (s.drop k) := by
  induction s with
  | nil => intro k i; simp [strings.indexFuncLoop]
  | cons b rest ih =>
    intro k i
    cases k with
    | zero => simp
    | succ k =>
      rw [strings.indexFuncLoop, ih k (i + 1), List.drop_succ_cons]
      congr 1
      omega

theorem indexFuncLoop_shift (f : Nat → Bool) (truth : Bool) (s : Str) :
    ∀ k i : Nat, strings.indexFuncLoop f truth k i s
      = (strings.indexFuncLoop f truth k 0 s).map (· + i) := by
  induction s with
  | nil => intro k i; simp [strings.indexFuncLoop]
  | cons b rest ih =>
    intro k i
    cases k with
    | zero =>
      simp only [strings.indexFuncLoop]
      split_ifs
      · simp
      · rw [ih _ (i + 1), ih _ (0 + 1), Option.map_map]
        congr 1
        funext j
        simp only [Function.comp]
        omega
    | succ k =>
      simp only [strings.indexFuncLoop]
      rw [ih _ (i + 1), ih _ (0 + 1), Option.map_map]
      congr 1
      funext j
      simp only [Function.comp]
      omega

theorem trimLeftFunc_nil (f : Nat → Bool) : strings.TrimLeftFunc [] f = [] := by
  simp [strings.TrimLeftFunc, strings.indexFunc, strings.indexFuncLoop]

/-- One step of `TrimLeftFunc`: a first rune on which `f` is false ends the
trimming, any other first rune is dropped. -/
theorem trimLeftFunc_cons (f : Nat → Bool) (b : Byte) (rest : Str) :
    strings.TrimLeftFunc (b :: rest) f
      = if f (utf8.DecodeRuneInString (b :: rest)).1 = false then b :: rest
        else strings.TrimLeftFunc
          ((b :: rest).drop (utf8.DecodeRuneInString (b :: rest)).2) f := by
  have hpos := decodeRune_size_pos b rest
  generalize hd : utf8.DecodeRuneInString (b :: rest) = d at hpos
  unfold strings.TrimLeftFunc strings.indexFunc
  rw [strings.indexFuncLoop, hd]
  split_ifs with hf
  · simp
  · rw [indexFuncLoop_skip, indexFuncLoop_shift]
    obtain ⟨sz, hsz⟩ : ∃ sz, d.2 = sz + 1 := ⟨d.2 - 1, by omega⟩
    rw [hsz]
    simp only [Nat.add_sub_cancel, List.drop_succ_cons]
    cases strings.indexFuncLoop f false 0 0 (List.drop sz rest) with
    | none => simp
    | some j =>
      simp only [Option.map_some']
      rw [show j + (0 + 1 + sz) = (sz + 1) + j by omega, ← List.drop_drop]
      simp
theorem isSpace_ascii : ∀ c : Byte, c.val < 0x80 → unicode.IsSpace c.val = strings.asciiSpace c := by
  decide

theorem trimLeftFunc_suffix (f : Nat → Bool) (s : Str) :
    ∃ k, strings.TrimLeftFunc s f = s.drop k := by
  unfold strings.TrimLeftFunc
  cases strings.indexFunc s f false with
  | none => exact ⟨s.length, by simp⟩
  | some i => exact ⟨i, rfl⟩

theorem mem_of_mem_trimLeftFunc (f : Nat → Bool) (s : Str) (b : Byte)
    (h : b ∈ strings.TrimLeftFunc s f) : b ∈ s := by
  obtain ⟨k, hk⟩ := trimLeftFunc_suffix f s
  rw [hk] at h
  exact List.mem_of_mem_drop h

theorem trimLeftFunc_idem (f : Nat → Bool) :
    ∀ (n : Nat) (s : Str), s.length = n →
      strings.TrimLeftFunc (strings.TrimLeftFunc s f) f = strings.TrimLeftFunc s f := by
  intro n
  induction n using Nat.strong_induction_on with
  | _ n ih =>
    intro s hs
    cases s with
    | nil => simp [trimLeftFunc_nil]
    | cons b rest =>
      have hpos := decodeRune_size_pos b rest
      rw [trimLeftFunc_cons f b rest]
      split_ifs with hf
      · rw [trimLeftFunc_cons f b rest, if_pos hf]
      · refine ih ((b :: rest).drop (utf8.DecodeRuneInString (b :: rest)).2).length ?_ _ rfl
        rw [List.length_drop, ← hs]
        simp only [List.length_cons]
        omega

/-- Trimming on the left does not look past an ASCII byte. -/
theorem trimLeftFunc_append_ascii (f : Nat → Bool) (c : Byte) (t : Str) (hc : c.val < 0x80) :
    ∀ (n : Nat) (x : Str), x.length = n →
      strings.TrimLeftFunc (x ++ c :: t) f
        = if strings.TrimLeftFunc x f = [] then strings.TrimLeftFunc (c :: t) f
          else strings.TrimLeftFunc x f ++ c :: t := by
  intro n
  induction n using Nat.strong_induction_on with
  | _ n ih =>
    intro x hx
    cases x with
    | nil => simp [trimLeftFunc_nil]
    | cons b rest =>
      have hpos := decodeRune_size_pos b rest
      have hle := decodeRune_size_le (b :: rest)
      have hdec := decodeRune_append_ascii (b :: rest) c t (by simp) hc
      rw [List.cons_append] at hdec
      rw [List.cons_append, trimLeftFunc_cons f b (rest ++ c :: t), hdec,
        trimLeftFunc_cons f b rest]
      by_cases hf : f (utf8.DecodeRuneInString (b :: rest)).1 = false
      · rw [if_pos hf, if_pos hf]
        simp
      · rw [if_neg hf, if_neg hf, ← List.cons_append, List.drop_append_of_le_length hle]
        exact ih ((b :: rest).drop (utf8.DecodeRuneInString (b :: rest)).2).length
          (by rw [List.length_drop, ← hx]; simp only [List.length_cons]; omega) _ rfl
/-! ## `TrimRightFunc` -/

theorem lastRuneStart_le (s : Str) (lim : Nat) :
    ∀ fuel k : Nat, strings.lastRuneStart s lim fuel k ≤ k - 1 := by
  intro fuel
  induction fuel with
  | zero => intro k; simp [strings.lastRuneStart]
  | succ fuel ih =>
    intro k
    rw [strings.lastRuneStart]
    split_ifs
    · omega
    · omega
    · omega
    · have := ih (k - 1)
      omega

theorem decodeLastRune_ascii (s : Str) (c : Byte) (hc : c.val < 0x80) :
    strings.DecodeLastRuneInString (s ++ [c]) = (c.val, 1) := by
  unfold strings.DecodeLastRuneInString
  simp [hc]

theorem decodeLastRune_size_pos (p : Str) (hp : p ≠ []) :
    1 ≤ (strings.DecodeLastRuneInString p).2 := by
  have hlen : 0 < p.length := List.length_pos.mpr hp
  unfold strings.DecodeLastRuneInString
  rw [if_neg (by omega)]
  by_cases h1 : (p.getD (p.length - 1) 0).val < 0x80
  · rw [if_pos h1]
  · rw [if_neg h1]
    have hle := lastRuneStart_le p (p.length - 4) 4 (p.length - 1)
    generalize strings.lastRuneStart p (p.length - 4) 4 (p.length - 1) = start at hle ⊢
    have hlt : start < p.length := by omega
    have hne : p.drop start ≠ [] := by
      intro h
      have := congrArg List.length h
      simp at this
      omega
    obtain ⟨b, rest, hbr⟩ := List.exists_cons_of_ne_nil hne
    simp only []
    rw [hbr]
    split_ifs
    · simp
    · exact decodeRune_size_pos b rest

theorem lastIndexFuncLoop_lt (f : Nat → Bool) (truth : Bool) :
    ∀ (fuel : Nat) (p : Str) (i : Nat),
      strings.lastIndexFuncLoop f truth fuel p = some i → i < p.length := by
  intro fuel
  induction fuel with
  | zero => intro p i h; simp [strings.lastIndexFuncLoop] at h
  | succ fuel ih =>
    intro p i h
    rw [strings.lastIndexFuncLoop] at h
    by_cases hp : p.length = 0
    · simp [hp] at h
    · have hne : p ≠ [] := by intro h0; simp [h0] at hp
      have hpos := decodeLastRune_size_pos p hne
      rw [if_neg hp] at h
      split_ifs at h with hf
      · simp only [Option.some.injEq] at h
        omega
      · have := ih _ _ h
        simp only [List.length_take] at this
        omega

theorem lastIndexFunc_append_ascii (f : Nat → Bool) (s : Str) (c : Byte)
    (hc : c.val < 0x80) :
    strings.lastIndexFunc (s ++ [c]) f false
      = if f c.val = false then some s.length else strings.lastIndexFunc s f false := by
  unfold strings.lastIndexFunc
  rw [List.length_append, List.length_singleton, strings.lastIndexFuncLoop,
    decodeLastRune_ascii s c hc]
  simp

theorem trimRightFunc_nil (f : Nat → Bool) : strings.TrimRightFunc [] f = [] := by
  unfold strings.TrimRightFunc
  cases strings.lastIndexFunc [] f false <;> simp

/-- A trailing ASCII byte on which `f` is true is trimmed away. -/
theorem trimRightFunc_append_true (f : Nat → Bool) (s : Str) (c : Byte)
    (hc : c.val < 0x80) (hf : f c.val = true) :
    strings.TrimRightFunc (s ++ [c]) f = strings.TrimRightFunc s f := by
  unfold strings.TrimRightFunc
  rw [lastIndexFunc_append_ascii f s c hc, if_neg (by simp [hf])]
  cases hi : strings.lastIndexFunc s f false with
  | none => simp
  | some i =>
    have hlt : i < s.length := lastIndexFuncLoop_lt f false _ _ _ hi
    have hget : (s ++ [c]).getD i 0 = s.getD i 0 := by
      simp [List.getD_eq_getElem?_getD, List.getElem?_append_left hlt]
    have hdrop : (s ++ [c]).drop i = s.drop i ++ [c] :=
      List.drop_append_of_le_length (by omega)
    have hne : s.drop i ≠ [] := by
      intro h
      have := congrArg List.length h
      simp at this
      omega
    have hsz := decodeRune_size_le (s.drop i)
    rw [List.length_drop] at hsz
    simp only [hget, hdrop, decodeRune_append_ascii (s.drop i) c [] hne hc]
    split_ifs
    · exact List.take_append_of_le_length (by omega)
    · exact List.take_append_of_le_length (by omega)

/-- A trailing ASCII byte on which `f` is false stops the trimming. -/
theorem trimRightFunc_append_false (f : Nat → Bool) (s : Str) (c : Byte)
    (hc : c.val < 0x80) (hf : f c.val = false) :
    strings.TrimRightFunc (s ++ [c]) f = s ++ [c] := by
  unfold strings.TrimRightFunc
  rw [lastIndexFunc_append_ascii f s c hc, if_pos hf]
  have hget : (s ++ [c]).getD s.length 0 = c := by
    simp [List.getD_eq_getElem?_getD]
  simp only [hget]
  rw [if_neg (by omega)]
  simp
/-! ## `TrimSpace` -/

theorem asciiSpace_lt (c : Byte) (h : strings.asciiSpace c = true) : c.val < 0x80 := by
  revert c
  decide

theorem trimLeft_cons_ascii (c : Byte) (s : Str) (hc : c.val < 0x80) :
    strings.TrimLeftFunc (c :: s) unicode.IsSpace
      = if strings.asciiSpace c then strings.TrimLeftFunc s unicode.IsSpace else c :: s := by
  rw [trimLeftFunc_cons, decodeRune_ascii c s hc]
  simp only [isSpace_ascii c hc, List.drop_succ_cons, List.drop_zero]
  cases strings.asciiSpace c <;> simp

theorem trimSpaceStop_eq (rev : Str) :
    strings.trimSpaceStop rev = strings.TrimRightFunc rev.reverse unicode.IsSpace := by
  induction rev with
  | nil => simp [strings.trimSpaceStop, trimRightFunc_nil]
  | cons c rev ih =>
    rw [strings.trimSpaceStop]
    by_cases h1 : c.val ≥ 0x80
    · rw [if_pos h1]
    · have hc : c.val < 0x80 := by omega
      rw [if_neg h1, List.reverse_cons]
      by_cases h2 : strings.asciiSpace c = true
      · rw [if_pos h2, ih, trimRightFunc_append_true _ _ c hc (by rw [isSpace_ascii c hc, h2])]
      · rw [if_neg h2, trimRightFunc_append_false _ _ c hc
          (by rw [isSpace_ascii c hc]; simpa using h2)]

/-- The fast path of `TrimSpace` computes `TrimFunc(s, unicode.IsSpace)`. -/
theorem trimSpace_eq_trimFunc (s : Str) :
    strings.TrimSpace s = strings.TrimFunc s unicode.IsSpace := by
  unfold strings.TrimSpace strings.TrimFunc
  induction s with
  | nil => simp [strings.trimSpaceStart, strings.trimSpaceStop, trimLeftFunc_nil, trimRightFunc_nil]
  | cons c rest ih =>
    rw [strings.trimSpaceStart]
    by_cases h1 : c.val ≥ 0x80
    · rw [if_pos h1, strings.TrimFunc]
    · have hc : c.val < 0x80 := by omega
      rw [if_neg h1, trimLeft_cons_ascii c rest hc]
      by_cases h2 : strings.asciiSpace c = true
      · rw [if_pos h2, if_pos h2, ih]
      · rw [if_neg h2, if_neg h2, trimSpaceStop_eq, List.reverse_reverse]

theorem trimLeft_blank_append (w s : Str) (hw : allBlank w) :
    strings.TrimLeftFunc (w ++ s) unicode.IsSpace = strings.TrimLeftFunc s unicode.IsSpace := by
  induction w with
  | nil => rfl
  | cons c w ih =>
    have h2 : strings.asciiSpace c = true := hw c (List.mem_cons_self _ _)
    rw [List.cons_append, trimLeft_cons_ascii c _ (asciiSpace_lt c h2), if_pos h2]
    exact ih (fun d hd => hw d (List.mem_cons_of_mem _ hd))

theorem trimRight_append_blank (s w : Str) (hw : allBlank w) :
    strings.TrimRightFunc (s ++ w) unicode.IsSpace = strings.TrimRightFunc s unicode.IsSpace := by
  induction w using List.reverseRecOn with
  | nil => simp
  | append_singleton w c ih =>
    have h2 : strings.asciiSpace c = true := hw c (by simp)
    have hc := asciiSpace_lt c h2
    rw [← List.append_assoc, trimRightFunc_append_true _ _ c hc (by rw [isSpace_ascii c hc, h2])]
    exact ih (fun d hd => hw d (by simp [hd]))

theorem trimRight_of_last (s : Str) (c : Byte) (hc : c.val < 0x80)
    (h2 : strings.asciiSpace c = false) :
    strings.TrimRightFunc (s ++ [c]) unicode.IsSpace = s ++ [c] :=
  trimRightFunc_append_false _ _ c hc (by rw [isSpace_ascii c hc, h2])

/-- Trimming `x` followed by blanks gives what trimming `x` gives. -/
theorem trimFunc_append_blank (x w : Str) (hw : allBlank w) :
    strings.TrimFunc (x ++ w) unicode.IsSpace = strings.TrimFunc x unicode.IsSpace := by
  induction w using List.reverseRecOn with
  | nil => simp
  | append_singleton w c ih =>
    have h2 : strings.asciiSpace c = true := hw c (by simp)
    have hc := asciiSpace_lt c h2
    have hw2 : allBlank w := fun d hd => hw d (by simp [hd])
    have key := trimLeftFunc_append_ascii unicode.IsSpace c [] hc _ (x ++ w) rfl
    unfold strings.TrimFunc at ih ⊢
    rw [← List.append_assoc, key, ← ih hw2]
    by_cases he : strings.TrimLeftFunc (x ++ w) unicode.IsSpace = []
    · rw [if_pos he, he, trimLeft_cons_ascii c [] hc, if_pos h2, trimLeftFunc_nil]
    · rw [if_neg he, trimRightFunc_append_true _ _ c hc (by rw [isSpace_ascii c hc, h2])]
/-! ## `SplitN` -/

theorem indexByte_append (f0 : Str) (c : Byte) (t : Str) (h : c ∉ f0) :
    strings.IndexByte (f0 ++ c :: t) c = some f0.length := by
  induction f0 with
  | nil => simp [strings.IndexByte]
  | cons b f0 ih =>
    have hb : b ≠ c := fun e => h (by simp [e])
    have h2 : c ∉ f0 := fun e => h (List.mem_cons_of_mem _ e)
    rw [List.cons_append, strings.IndexByte, if_neg hb, ih h2]
    simp

/-- A string with at least two separators is cut at the first two of them. -/
theorem splitN_three (f0 f1 f2 : Str) (c : Byte) (h0 : c ∉ f0) (h1 : c ∉ f1) :
    strings.SplitN (f0 ++ c :: (f1 ++ c :: f2)) c 3 = [f0, f1, f2] := by
  have hlen : ¬ (3 > (f0 ++ c :: (f1 ++ c :: f2)).length + 1) := by
    simp only [List.length_append, List.length_cons]
    omega
  unfold strings.SplitN
  rw [if_neg (by decide), if_neg hlen]
  have e1 : List.drop (f0.length + 1) (f0 ++ c :: (f1 ++ c :: f2)) = f1 ++ c :: f2 := by
    rw [← List.drop_drop]
    simp
  have e2 : List.drop (f1.length + 1) (f1 ++ c :: f2) = f2 := by
    rw [← List.drop_drop]
    simp
  have e3 : List.take f0.length (f0 ++ c :: (f1 ++ c :: f2)) = f0 := by simp
  have e4 : List.take f1.length (f1 ++ c :: f2) = f1 := by simp
  show strings.genSplitLoop c 2 (f0 ++ c :: (f1 ++ c :: f2)) = [f0, f1, f2]
  rw [strings.genSplitLoop, indexByte_append f0 c _ h0]
  simp only [e1, e3]
  rw [strings.genSplitLoop, indexByte_append f1 c _ h1]
  simp only [e2, e4]
  rw [strings.genSplitLoop]

/-! ## `Atoi` -/

theorem digitsFrom_cons (n : Nat) (c : Byte) (ds : Str) :
    digitsFrom n (c :: ds) = digitsFrom (10 * n + digitValue c) ds := rfl

theorem le_digitsFrom (ds : Str) : ∀ n : Nat, n ≤ digitsFrom n ds := by
  induction ds with
  | nil => intro n; exact Nat.le_refl _
  | cons c ds ih =>
    intro n
    rw [digitsFrom_cons]
    have := ih (10 * n + digitValue c)
    omega

theorem atoiFastLoop_digits (ds : Str) :
    ∀ n : Nat, ds.all isAsciiDigit = true →
      strconv.atoiFastLoop ds n = some (digitsFrom n ds) := by
  induction ds with
  | nil => intro n _; rfl
  | cons c ds ih =>
    intro n h
    simp only [List.all_cons, Bool.and_eq_true] at h
    have hc := h.1
    simp only [isAsciiDigit, Bool.and_eq_true, decide_eq_true_eq] at hc
    have e : (c.val + 256 - 0x30) % 256 = c.val - 0x30 := by omega
    rw [strconv.atoiFastLoop, e, if_neg (by omega), ih _ h.2, digitsFrom_cons, digitValue,
      Nat.mul_comm]

theorem parseUintLoop_digits (ds : Str) :
    ∀ n : Nat, ds.all isAsciiDigit = true → digitsFrom n ds < 2 ^ 64 →
      strconv.parseUintLoop ds n = (digitsFrom n ds, none) := by
  induction ds with
  | nil => intro n _ _; rfl
  | cons c ds ih =>
    intro n h hlt
    simp only [List.all_cons, Bool.and_eq_true] at h
    have hc := h.1
    simp only [isAsciiDigit, Bool.and_eq_true, decide_eq_true_eq] at hc
    rw [digitsFrom_cons] at hlt
    have hle := le_digitsFrom ds (10 * n + digitValue c)
    have hd : digitValue c = c.val - 0x30 := rfl
    have h64 : (2 : Nat) ^ 64 = 18446744073709551616 := by norm_num
    rw [h64] at hlt
    have e1 : n * 10 % 2 ^ 64 = n * 10 := by
      rw [h64]
      omega
    have e2 : (n * 10 + (c.val - 0x30)) % 2 ^ 64 = 10 * n + digitValue c := by
      rw [h64]
      omega
    rw [strconv.parseUintLoop, if_pos hc, if_neg (by unfold strconv.maxUint64; rw [h64]; omega)]
    simp only [e1, e2]
    rw [if_neg (by unfold strconv.maxUint64; rw [h64]; omega), digitsFrom_cons]
    exact ih _ h.2 (by rw [h64]; exact hlt)
theorem isDigits_ne_nil (ds : Str) (h : isDigits ds = true) : ds ≠ [] := by
  intro e
  rw [e] at h
  simp [isDigits] at h

theorem isDigits_all (ds : Str) (h : isDigits ds = true) : ds.all isAsciiDigit = true := by
  simp only [isDigits, Bool.and_eq_true] at h
  exact h.2

theorem parseIntSigned_digits (neg : Bool) (ds : Str) (h : isDigits ds = true)
    (hr : digitsFrom 0 ds < 2 ^ 63 ∨ (neg = true ∧ digitsFrom 0 ds = 2 ^ 63)) :
    strconv.parseIntSigned neg ds
      = (if neg then -(digitsFrom 0 ds : Int) else (digitsFrom 0 ds : Int), none) := by
  have h63 : (2 : Nat) ^ 63 = 9223372036854775808 := by norm_num
  have h64 : (2 : Nat) ^ 64 = 18446744073709551616 := by norm_num
  have hlt : digitsFrom 0 ds < 2 ^ 64 := by
    rw [h64]
    rw [h63] at hr
    omega
  have hu : strconv.ParseUint ds = (digitsFrom 0 ds, none) := by
    unfold strconv.ParseUint
    rw [if_neg (isDigits_ne_nil ds h)]
    exact parseUintLoop_digits ds 0 (isDigits_all ds h) hlt
  unfold strconv.parseIntSigned
  rw [hu]
  simp only [strconv.IntSize]
  rw [h63] at hr
  have e63 : (2 : Nat) ^ (64 - 1) = 9223372036854775808 := by norm_num
  simp only [e63]
  cases neg with
  | false =>
    have h1 : ¬ (digitsFrom 0 ds ≥ 9223372036854775808) := by
      rcases hr with h | ⟨h, _⟩
      · omega
      · exact absurd h (by decide)
    simp [h1]
  | true =>
    have h1 : ¬ (digitsFrom 0 ds > 9223372036854775808) := by omega
    simp [h1]

theorem atoi_fast (s0 : Byte) (rest : Str) (hfast : (s0 :: rest).length < 19) :
    strconv.Atoi (s0 :: rest)
      = if (if s0 = 0x2D ∨ s0 = 0x2B then rest else s0 :: rest).length < 1 then
          (0, some .ErrSyntax)
        else
          match strconv.atoiFastLoop (if s0 = 0x2D ∨ s0 = 0x2B then rest else s0 :: rest) 0 with
          | none => (0, some .ErrSyntax)
          | some n => (if s0 = 0x2D then -(n : Int) else (n : Int), none) := by
  rw [strconv.Atoi, if_pos hfast]

theorem atoi_slow (s : Str) (hslow : ¬ (s.length < 19)) :
    strconv.Atoi s = strconv.ParseInt s := by
  cases s with
  | nil => rfl
  | cons s0 rest => simp only [strconv.Atoi, if_neg hslow]

theorem length_pos_of_isDigits (ds : Str) (h : isDigits ds = true) : ¬ (ds.length < 1) := by
  have := List.length_pos.mpr (isDigits_ne_nil ds h)
  omega

/-- Go's `Atoi` reads every decimal numeral whose value fits a 64-bit `int`, without
error. -/
theorem atoi_decimal (A : Str) (a : Int) (h : decimalValue A = some a)
    (hlo : -(2 : Int) ^ 63 ≤ a) (hhi : a < (2 : Int) ^ 63) :
    strconv.Atoi A = (a, none) := by
  have h63 : (2 : Int) ^ 63 = 9223372036854775808 := by norm_num
  have n63 : (2 : Nat) ^ 63 = 9223372036854775808 := by norm_num
  rw [h63] at hlo hhi
  cases A with
  | nil => simp [decimalValue] at h
  | cons c rest =>
    simp only [decimalValue] at h
    by_cases hm : c = 0x2D
    · rw [if_pos hm] at h
      by_cases hd : isDigits rest = true
      · rw [if_pos hd] at h
        have ha : a = -(digitsFrom 0 rest : Int) := by simpa using h.symm
        have hsign : c = 0x2D ∨ c = 0x2B := Or.inl hm
        by_cases hfast : (c :: rest).length < 19
        · rw [atoi_fast c rest hfast, if_pos hsign, if_neg (length_pos_of_isDigits rest hd),
            atoiFastLoop_digits rest 0 (isDigits_all rest hd)]
          simp only [if_pos hm, ha]
        · have hle : digitsFrom 0 rest ≤ 9223372036854775808 := by omega
          have hr : digitsFrom 0 rest < 2 ^ 63 ∨ (true = true ∧ digitsFrom 0 rest = 2 ^ 63) := by
            rw [n63]
            rcases Nat.lt_or_eq_of_le hle with h1 | h1
            · exact Or.inl h1
            · exact Or.inr ⟨rfl, h1⟩
          have hplus : ¬ (c = 0x2B) := by rw [hm]; decide
          rw [atoi_slow _ hfast, strconv.ParseInt, if_neg hplus, if_pos hm,
            parseIntSigned_digits true rest hd hr]
          simp [ha]
      · rw [if_neg hd] at h
        exact absurd h (by simp)
    · rw [if_neg hm] at h
      by_cases hp : c = 0x2B
      · rw [if_pos hp] at h
        by_cases hd : isDigits rest = true
        · rw [if_pos hd] at h
          have ha : a = (digitsFrom 0 rest : Int) := by simpa using h.symm
          have hsign : c = 0x2D ∨ c = 0x2B := Or.inr hp
          by_cases hfast : (c :: rest).length < 19
          · rw [atoi_fast c rest hfast, if_pos hsign, if_neg (length_pos_of_isDigits rest hd),
              atoiFastLoop_digits rest 0 (isDigits_all rest hd)]
            simp only [if_neg hm, ha]
          · have hr : digitsFrom 0 rest < 2 ^ 63 ∨
                (false = true ∧ digitsFrom 0 rest = 2 ^ 63) := by
              rw [n63]
              exact Or.inl (by omega)
            rw [atoi_slow _ hfast, strconv.ParseInt, if_pos hp,
              parseIntSigned_digits false rest hd hr]
            simp [ha]
        · rw [if_neg hd] at h
          exact absurd h (by simp)
      · rw [if_neg hp] at h
        by_cases hd : isDigits (c :: rest) = true
        · rw [if_pos hd] at h
          have ha : a = (digitsFrom 0 (c :: rest) : Int) := by simpa using h.symm
          have hsign : ¬ (c = 0x2D ∨ c = 0x2B) := by
            intro e
            rcases e with e | e
            · exact hm e
            · exact hp e
          by_cases hfast : (c :: rest).length < 19
          · rw [atoi_fast c rest hfast, if_neg hsign, if_neg (length_pos_of_isDigits _ hd),
              atoiFastLoop_digits (c :: rest) 0 (isDigits_all _ hd)]
            simp only [if_neg hm, ha]
          · have hr : digitsFrom 0 (c :: rest) < 2 ^ 63 ∨
                (false = true ∧ digitsFrom 0 (c :: rest) = 2 ^ 63) := by
              rw [n63]
              exact Or.inl (by omega)
            rw [atoi_slow _ hfast, strconv.ParseInt, if_neg hp, if_neg hm,
              parseIntSigned_digits false (c :: rest) hd hr]
            simp [ha]
        · rw [if_neg hd] at h
          exact absurd h (by simp)
/-! ## Decimal numerals -/

theorem numeralByte_facts :
    ∀ x : Byte, isNumeralByte x = true →
      x.val < 0x80 ∧ strings.asciiSpace x = false ∧ x ≠ 0x2C := by
  decide

theorem isDigits_numeralBytes (ds : Str) (h : ds.all isAsciiDigit = true) :
    ∀ x ∈ ds, isNumeralByte x = true := by
  intro x hx
  have := List.all_eq_true.mp h x hx
  simp [isNumeralByte, this]

theorem decimalValue_bytes (A : Str) (a : Int) (h : decimalValue A = some a) :
    A ≠ [] ∧ ∀ x ∈ A, isNumeralByte x = true := by
  cases A with
  | nil => simp [decimalValue] at h
  | cons c rest =>
    refine ⟨by simp, ?_⟩
    simp only [decimalValue] at h
    by_cases hm : c = 0x2D
    · rw [if_pos hm] at h
      by_cases hd : isDigits rest = true
      · intro x hx
        rcases List.mem_cons.mp hx with e | e
        · rw [e, hm]; decide
        · exact isDigits_numeralBytes rest (isDigits_all rest hd) x e
      · rw [if_neg hd] at h
        exact absurd h (by simp)
    · rw [if_neg hm] at h
      by_cases hp : c = 0x2B
      · rw [if_pos hp] at h
        by_cases hd : isDigits rest = true
        · intro x hx
          rcases List.mem_cons.mp hx with e | e
          · rw [e, hp]; decide
          · exact isDigits_numeralBytes rest (isDigits_all rest hd) x e
        · rw [if_neg hd] at h
          exact absurd h (by simp)
      · rw [if_neg hp] at h
        by_cases hd : isDigits (c :: rest) = true
        · exact isDigits_numeralBytes _ (isDigits_all _ hd)
        · rw [if_neg hd] at h
          exact absurd h (by simp)

/-- Trimming a string that starts and ends with sign or digit bytes, wrapped
in blanks, gives the string back. -/
theorem trimSpace_wrapped (w A w' : Str) (hw : allBlank w) (hw' : allBlank w')
    (hne : A ≠ []) (hA : ∀ x ∈ A, isNumeralByte x = true) :
    strings.TrimSpace (w ++ A ++ w') = A := by
  rw [trimSpace_eq_trimFunc, strings.TrimFunc, List.append_assoc, trimLeft_blank_append w _ hw]
  obtain ⟨c, rest, hcr⟩ := List.exists_cons_of_ne_nil hne
  have hc := numeralByte_facts c (hA c (by rw [hcr]; simp))
  have e1 : strings.TrimLeftFunc (A ++ w') unicode.IsSpace = A ++ w' := by
    rw [hcr, List.cons_append, trimLeft_cons_ascii c _ hc.1, hc.2.1]
    simp
  rw [e1, trimRight_append_blank A w' hw']
  have hlast := List.dropLast_append_getLast hne
  have hd := numeralByte_facts (A.getLast hne) (hA _ (List.getLast_mem hne))
  rw [← hlast]
  exact trimRight_of_last _ _ hd.1 hd.2.1
/-! ## The scan loop of `loadBankData` -/

theorem loadBankLine_append (banks : List Bank) (text : Str) :
    loadBankLine banks text = banks ++ loadBankLine [] text := by
  unfold loadBankLine
  simp only []
  split_ifs <;> simp

theorem foldl_loadBankLine (lines : List Str) :
    ∀ acc : List Bank,
      lines.foldl loadBankLine acc = acc ++ lines.foldl loadBankLine [] := by
  induction lines with
  | nil => intro acc; simp
  | cons l ls ih =>
    intro acc
    rw [List.foldl_cons, List.foldl_cons, ih (loadBankLine acc l), ih (loadBankLine [] l),
      loadBankLine_append acc l, List.append_assoc]

/-- The table is built line by line: the records of a line are put between
those of the lines before it and those of the lines after it, and the error is
the one of the scanner. -/
theorem loadBankData_append_cons (pre post : List Str) (text : Str)
    (e : Option ScanError) :
    loadBankData (pre ++ text :: post) e
      = ((loadBankData pre e).1 ++ loadBankLine [] text ++ (loadBankData post e).1, e) := by
  unfold loadBankData
  simp only [List.foldl_append, List.foldl_cons]
  rw [foldl_loadBankLine post, loadBankLine_append]

/-- A line whose trimmed text has at least two commas gives one record, cut at
the first two commas. -/
theorem loadBankLine_three_fields (text f0 f1 f2 : Str)
    (hsplit : strings.TrimSpace text = f0 ++ 0x2C :: (f1 ++ 0x2C :: f2))
    (h0 : (0x2C : Byte) ∉ f0) (h1 : (0x2C : Byte) ∉ f1) :
    loadBankLine [] text
      = [{ Name := strings.TrimSpace f0, BinFrom := storedBound f1,
           BinTo := storedBound f2 }] := by
  have hne : ¬ (f0 ++ 0x2C :: (f1 ++ 0x2C :: f2) = []) := by simp
  unfold loadBankLine
  simp only [hsplit, if_neg hne, splitN_three f0 f1 f2 0x2C h0 h1, storedBound]
  simp
/-! ## The errors of `Atoi` -/

theorem parseIntSigned_syntax (neg : Bool) (s : Str)
    (h : (strconv.parseIntSigned neg s).2 = some .ErrSyntax) :
    (strconv.parseIntSigned neg s).1 = 0 := by
  unfold strconv.parseIntSigned at h ⊢
  generalize strconv.ParseUint s = pu at h ⊢
  obtain ⟨un, err⟩ := pu
  cases err with
  | none =>
    simp only [] at h
    split_ifs at h <;> simp at h
  | some e =>
    cases e with
    | ErrSyntax => rfl
    | ErrRange =>
      simp only [] at h
      split_ifs at h <;> simp at h

theorem parseInt_syntax (s : Str) (h : (strconv.ParseInt s).2 = some .ErrSyntax) :
    (strconv.ParseInt s).1 = 0 := by
  cases s with
  | nil => rfl
  | cons c rest =>
    simp only [strconv.ParseInt] at h ⊢
    split_ifs at h ⊢ <;> exact parseIntSigned_syntax _ _ h

/-- A syntax error of `Atoi` comes with the value 0. -/
theorem atoi_syntax_zero (s : Str) (h : (strconv.Atoi s).2 = some .ErrSyntax) :
    (strconv.Atoi s).1 = 0 := by
  by_cases hfast : s.length < 19
  · cases s with
    | nil => rfl
    | cons s0 rest =>
      rw [atoi_fast s0 rest hfast] at h ⊢
      generalize (if s0 = 0x2D ∨ s0 = 0x2B then rest else s0 :: rest) = digits at h ⊢
      by_cases hlen : digits.length < 1
      · rw [if_pos hlen]
      · rw [if_neg hlen] at h ⊢
        generalize strconv.atoiFastLoop digits 0 = r at h ⊢
        cases r with
        | none => rfl
        | some n => simp at h
  · rw [atoi_slow s hfast] at h ⊢
    exact parseInt_syntax s h

theorem atoi_nil : strconv.Atoi [] = (0, some .ErrSyntax) := rfl

/-- A first byte that is neither a sign nor a digit is a syntax error. -/
theorem atoi_bad_first (c : Byte) (rest : Str) (hm : c ≠ 0x2D) (hp : c ≠ 0x2B)
    (hd : isAsciiDigit c = false) :
    strconv.Atoi (c :: rest) = (0, some .ErrSyntax) := by
  have hsign : ¬ (c = 0x2D ∨ c = 0x2B) := by
    intro e
    rcases e with e | e
    · exact hm e
    · exact hp e
  have hd2 : ¬ (0x30 ≤ c.val ∧ c.val ≤ 0x39) := by
    simpa [isAsciiDigit] using hd
  by_cases hfast : (c :: rest).length < 19
  · have hlen : ¬ ((c :: rest).length < 1) := by simp
    have hloop : strconv.atoiFastLoop (c :: rest) 0 = none := by
      rw [strconv.atoiFastLoop, if_pos (by omega)]
    rw [atoi_fast c rest hfast, if_neg hsign, if_neg hlen, hloop]
  · have hu : strconv.ParseUint (c :: rest) = (0, some .ErrSyntax) := by
      unfold strconv.ParseUint
      rw [if_neg (by simp), strconv.parseUintLoop, if_neg hd2]
    rw [atoi_slow _ hfast, strconv.ParseInt, if_neg hp, if_neg hm, strconv.parseIntSigned, hu]

theorem digitsFrom_lt (ds : Str) :
    ∀ n : Nat, ds.all isAsciiDigit = true → digitsFrom n ds < (n + 1) * 10 ^ ds.length := by
  induction ds with
  | nil => intro n _; simp [digitsFrom]
  | cons c ds ih =>
    intro n h
    simp only [List.all_cons, Bool.and_eq_true] at h
    have hc := h.1
    simp only [isAsciiDigit, Bool.and_eq_true, decide_eq_true_eq] at hc
    have hd : digitValue c ≤ 9 := by
      unfold digitValue
      omega
    have key := ih (10 * n + digitValue c) h.2
    rw [digitsFrom_cons, List.length_cons, pow_succ]
    calc digitsFrom (10 * n + digitValue c) ds
        < (10 * n + digitValue c + 1) * 10 ^ ds.length := key
      _ ≤ ((n + 1) * 10) * 10 ^ ds.length := Nat.mul_le_mul_right _ (by omega)
      _ = (n + 1) * (10 ^ ds.length * 10) := by ring

theorem digitsFrom_lt_of_short (ds : Str) (h : ds.all isAsciiDigit = true)
    (hlen : ds.length ≤ 18) : digitsFrom 0 ds < 10 ^ 18 := by
  have key := digitsFrom_lt ds 0 h
  calc digitsFrom 0 ds < (0 + 1) * 10 ^ ds.length := key
    _ = 10 ^ ds.length := by ring
    _ ≤ 10 ^ 18 := Nat.pow_le_pow_right (by norm_num) hlen

theorem parseUintLoop_overflow (ds : Str) :
    ∀ n : Nat, ds.all isAsciiDigit = true → n < 2 ^ 64 → 2 ^ 64 ≤ digitsFrom n ds →
      strconv.parseUintLoop ds n = (strconv.maxUint64, some .ErrRange) := by
  induction ds with
  | nil =>
    intro n _ hn hge
    simp only [digitsFrom, List.foldl_nil] at hge
    omega
  | cons c ds ih =>
    intro n h hn hge
    simp only [List.all_cons, Bool.and_eq_true] at h
    have hc := h.1
    simp only [isAsciiDigit, Bool.and_eq_true, decide_eq_true_eq] at hc
    have hd : digitValue c = c.val - 0x30 := rfl
    have h64 : (2 : Nat) ^ 64 = 18446744073709551616 := by norm_num
    rw [digitsFrom_cons] at hge
    rw [h64] at hn
    rw [strconv.parseUintLoop, if_pos hc]
    by_cases hcut : n ≥ strconv.maxUint64 / 10 + 1
    · rw [if_pos hcut]
    · rw [if_neg hcut]
      have hcut2 : n ≤ 1844674407370955161 := by
        unfold strconv.maxUint64 at hcut
        rw [h64] at hcut
        omega
      have e1 : n * 10 % 2 ^ 64 = n * 10 := by
        rw [h64]
        omega
      simp only [e1]
      by_cases hwrap : n * 10 + (c.val - 0x30) < 18446744073709551616
      · have e2 : (n * 10 + (c.val - 0x30)) % 2 ^ 64 = 10 * n + digitValue c := by
          rw [h64]
          omega
        simp only [e2]
        rw [if_neg (by unfold strconv.maxUint64; rw [h64]; omega)]
        exact ih _ h.2 (by rw [h64]; omega) hge
      · rw [if_pos (Or.inl (by rw [h64]; omega))]
theorem parseIntSigned_range (neg : Bool) (ds : Str) (h : isDigits ds = true)
    (hr : (neg = false ∧ 2 ^ 63 ≤ digitsFrom 0 ds) ∨ (neg = true ∧ 2 ^ 63 < digitsFrom 0 ds)) :
    strconv.parseIntSigned neg ds
      = (if neg then -(9223372036854775808 : Int) else 9223372036854775807, some .ErrRange) := by
  have h63 : (2 : Nat) ^ 63 = 9223372036854775808 := by norm_num
  have h64 : (2 : Nat) ^ 64 = 18446744073709551616 := by norm_num
  have e63 : (2 : Nat) ^ (64 - 1) = 9223372036854775808 := by norm_num
  rw [h63] at hr
  have hu : ∃ un : Nat, 9223372036854775808 ≤ un ∧ (neg = true → 9223372036854775808 < un) ∧
      (strconv.ParseUint ds = (un, none) ∨ strconv.ParseUint ds = (un, some .ErrRange)) := by
    unfold strconv.ParseUint
    rw [if_neg (isDigits_ne_nil ds h)]
    by_cases hlt : digitsFrom 0 ds < 2 ^ 64
    · refine ⟨digitsFrom 0 ds, ?_, ?_, Or.inl (parseUintLoop_digits ds 0 (isDigits_all ds h) hlt)⟩
      · rcases hr with ⟨_, h1⟩ | ⟨_, h1⟩ <;> omega
      · intro hn
        rcases hr with ⟨h0, _⟩ | ⟨_, h1⟩
        · rw [hn] at h0
          exact absurd h0 (by decide)
        · exact h1
    · refine ⟨strconv.maxUint64, ?_, ?_, Or.inr (parseUintLoop_overflow ds 0 (isDigits_all ds h)
        (by norm_num) (by omega))⟩
      · unfold strconv.maxUint64
        rw [h64]
        omega
      · intro _
        unfold strconv.maxUint64
        rw [h64]
        omega
  obtain ⟨un, hge, hgt, hpu⟩ := hu
  unfold strconv.parseIntSigned
  rcases hpu with hpu | hpu <;>
  · rw [hpu]
    simp only [strconv.IntSize, e63]
    cases neg with
    | false => simp [hge]
    | true =>
      have := hgt rfl
      simp [this]

/-- A decimal numeral above the largest 64-bit `int` is a range error with
the value `2^63 - 1`. -/
theorem atoi_too_large (A : Str) (a : Int) (h : decimalValue A = some a)
    (hge : (2 : Int) ^ 63 ≤ a) :
    strconv.Atoi A = (9223372036854775807, some .ErrRange) := by
  have h63 : (2 : Int) ^ 63 = 9223372036854775808 := by norm_num
  have n63 : (2 : Nat) ^ 63 = 9223372036854775808 := by norm_num
  have p18 : (10 : Nat) ^ 18 = 1000000000000000000 := by norm_num
  rw [h63] at hge
  cases A with
  | nil => simp [decimalValue] at h
  | cons c rest =>
    simp only [decimalValue] at h
    by_cases hm : c = 0x2D
    · rw [if_pos hm] at h
      by_cases hd : isDigits rest = true
      · rw [if_pos hd] at h
        have ha : a = -(digitsFrom 0 rest : Int) := by simpa using h.symm
        omega
      · rw [if_neg hd] at h
        exact absurd h (by simp)
    · rw [if_neg hm] at h
      by_cases hp : c = 0x2B
      · rw [if_pos hp] at h
        by_cases hd : isDigits rest = true
        · rw [if_pos hd] at h
          have ha : a = (digitsFrom 0 rest : Int) := by simpa using h.symm
          by_cases hfast : (c :: rest).length < 19
          · have hb := digitsFrom_lt_of_short rest (isDigits_all rest hd)
              (by simp only [List.length_cons] at hfast; omega)
            rw [p18] at hb
            omega
          · have hr : (false = false ∧ 2 ^ 63 ≤ digitsFrom 0 rest) ∨
                (false = true ∧ 2 ^ 63 < digitsFrom 0 rest) := by
              rw [n63]
              exact Or.inl ⟨rfl, by omega⟩
            rw [atoi_slow _ hfast, strconv.ParseInt, if_pos hp,
              parseIntSigned_range false rest hd hr]
            simp
        · rw [if_neg hd] at h
          exact absurd h (by simp)
      · rw [if_neg hp] at h
        by_cases hd : isDigits (c :: rest) = true
        · rw [if_pos hd] at h
          have ha : a = (digitsFrom 0 (c :: rest) : Int) := by simpa using h.symm
          by_cases hfast : (c :: rest).length < 19
          · have hb := digitsFrom_lt_of_short (c :: rest) (isDigits_all _ hd) (by omega)
            rw [p18] at hb
            omega
          · have hr : (false = false ∧ 2 ^ 63 ≤ digitsFrom 0 (c :: rest)) ∨
                (false = true ∧ 2 ^ 63 < digitsFrom 0 (c :: rest)) := by
              rw [n63]
              exact Or.inl ⟨rfl, by omega⟩
            rw [atoi_slow _ hfast, strconv.ParseInt, if_neg hp, if_neg hm,
              parseIntSigned_range false (c :: rest) hd hr]
            simp
        · rw [if_neg hd] at h
          exact absurd h (by simp)

/-- A decimal numeral below the smallest 64-bit `int` is a range error with
the value `-2^63`. -/
theorem atoi_too_small (A : Str) (a : Int) (h : decimalValue A = some a)
    (hlt : a < -(2 : Int) ^ 63) :
    strconv.Atoi A = (-9223372036854775808, some .ErrRange) := by
  have h63 : (2 : Int) ^ 63 = 9223372036854775808 := by norm_num
  have n63 : (2 : Nat) ^ 63 = 9223372036854775808 := by norm_num
  have p18 : (10 : Nat) ^ 18 = 1000000000000000000 := by norm_num
  rw [h63] at hlt
  cases A with
  | nil => simp [decimalValue] at h
  | cons c rest =>
    simp only [decimalValue] at h
    by_cases hm : c = 0x2D
    · rw [if_pos hm] at h
      by_cases hd : isDigits rest = true
      · rw [if_pos hd] at h
        have ha : a = -(digitsFrom 0 rest : Int) := by simpa using h.symm
        by_cases hfast : (c :: rest).length < 19
        · have hb := digitsFrom_lt_of_short rest (isDigits_all rest hd)
            (by simp only [List.length_cons] at hfast; omega)
          rw [p18] at hb
          omega
        · have hr : (true = false ∧ 2 ^ 63 ≤ digitsFrom 0 rest) ∨
              (true = true ∧ 2 ^ 63 < digitsFrom 0 rest) := by
            rw [n63]
            exact Or.inr ⟨rfl, by omega⟩
          have hplus : ¬ (c = 0x2B) := by rw [hm]; decide
          rw [atoi_slow _ hfast, strconv.ParseInt, if_neg hplus, if_pos hm,
            parseIntSigned_range true rest hd hr]
          simp
      · rw [if_neg hd] at h
        exact absurd h (by simp)
    · rw [if_neg hm] at h
      by_cases hp : c = 0x2B
      · rw [if_pos hp] at h
        by_cases hd : isDigits rest = true
        · rw [if_pos hd] at h
          have ha : a = (digitsFrom 0 rest : Int) := by simpa using h.symm
          omega
        · rw [if_neg hd] at h
          exact absurd h (by simp)
      · rw [if_neg hp] at h
        by_cases hd : isDigits (c :: rest) = true
        · rw [if_pos hd] at h
          have ha : a = (digitsFrom 0 (c :: rest) : Int) := by simpa using h.symm
          omega
        · rw [if_neg hd] at h
          exact absurd h (by simp)
/-! ## Trimming a table line -/

theorem comma_not_blank (w : Str) (hw : allBlank w) : (0x2C : Byte) ∉ w := by
  intro h
  have := hw _ h
  exact absurd this (by decide)

theorem trimSpace_bankLine (n A B w0 w1 w2 w3 w4 w5 : Str)
    (hw0 : allBlank w0) (hw5 : allBlank w5)
    (hB : B ≠ []) (hBb : ∀ x ∈ B, isNumeralByte x = true) :
    strings.TrimSpace (bankLine n A B w0 w1 w2 w3 w4 w5)
      = strings.TrimLeftFunc (n ++ w1) unicode.IsSpace
          ++ 0x2C :: ((w2 ++ A ++ w3) ++ 0x2C :: (w4 ++ B)) := by
  have hc : ((0x2C : Byte)).val < 0x80 := by decide
  have hcs : strings.asciiSpace 0x2C = false := by decide
  have e0 : bankLine n A B w0 w1 w2 w3 w4 w5
      = w0 ++ ((n ++ w1) ++ 0x2C :: ((w2 ++ A ++ w3) ++ 0x2C :: (w4 ++ B ++ w5))) := by
    simp [bankLine, List.append_assoc]
  have e1 : strings.TrimLeftFunc
      ((n ++ w1) ++ 0x2C :: ((w2 ++ A ++ w3) ++ 0x2C :: (w4 ++ B ++ w5))) unicode.IsSpace
      = strings.TrimLeftFunc (n ++ w1) unicode.IsSpace
          ++ 0x2C :: ((w2 ++ A ++ w3) ++ 0x2C :: (w4 ++ B ++ w5)) := by
    rw [trimLeftFunc_append_ascii unicode.IsSpace 0x2C _ hc _ (n ++ w1) rfl,
      trimLeft_cons_ascii 0x2C _ hc, hcs]
    by_cases he : strings.TrimLeftFunc (n ++ w1) unicode.IsSpace = []
    · rw [if_pos he, he]
      simp
    · rw [if_neg he]
  have hlast := List.dropLast_append_getLast hB
  have hd := numeralByte_facts (B.getLast hB) (hBb _ (List.getLast_mem hB))
  have e2 : strings.TrimLeftFunc (n ++ w1) unicode.IsSpace
        ++ 0x2C :: ((w2 ++ A ++ w3) ++ 0x2C :: (w4 ++ B ++ w5))
      = (strings.TrimLeftFunc (n ++ w1) unicode.IsSpace
        ++ 0x2C :: ((w2 ++ A ++ w3) ++ 0x2C :: (w4 ++ B.dropLast)) ++ [B.getLast hB]) ++ w5 := by
    conv_lhs => rw [← hlast]
    simp [List.append_assoc]
  have e3 : strings.TrimLeftFunc (n ++ w1) unicode.IsSpace
        ++ 0x2C :: ((w2 ++ A ++ w3) ++ 0x2C :: (w4 ++ B))
      = strings.TrimLeftFunc (n ++ w1) unicode.IsSpace
        ++ 0x2C :: ((w2 ++ A ++ w3) ++ 0x2C :: (w4 ++ B.dropLast)) ++ [B.getLast hB] := by
    conv_lhs => rw [← hlast]
    simp [List.append_assoc]
  rw [trimSpace_eq_trimFunc, strings.TrimFunc, e0, trimLeft_blank_append w0 _ hw0, e1, e2,
    trimRight_append_blank _ w5 hw5, trimRight_of_last _ _ hd.1 hd.2.1, e3]

theorem trimSpace_trimLeft_append_blank (n w1 : Str) (hw1 : allBlank w1) :
    strings.TrimSpace (strings.TrimLeftFunc (n ++ w1) unicode.IsSpace) = strings.TrimSpace n := by
  rw [trimSpace_eq_trimFunc, trimSpace_eq_trimFunc, strings.TrimFunc,
    trimLeftFunc_idem unicode.IsSpace _ (n ++ w1) rfl]
  exact trimFunc_append_blank n w1 hw1

/-- A line `n , A , B` with blanks around the fields loads as the record of
the trimmed name and of the two numerals. -/
theorem loadBankLine_bankLine (n A B w0 w1 w2 w3 w4 w5 : Str) (a b : Int)
    (hn : (0x2C : Byte) ∉ n)
    (hw0 : allBlank w0) (hw1 : allBlank w1) (hw2 : allBlank w2) (hw3 : allBlank w3)
    (hw4 : allBlank w4) (hw5 : allBlank w5)
    (hA : decimalValue A = some a) (hB : decimalValue B = some b)
    (ha : -(2 : Int) ^ 63 ≤ a ∧ a < (2 : Int) ^ 63)
    (hb : -(2 : Int) ^ 63 ≤ b ∧ b < (2 : Int) ^ 63) :
    loadBankLine [] (bankLine n A B w0 w1 w2 w3 w4 w5)
      = [{ Name := strings.TrimSpace n, BinFrom := a, BinTo := b }] := by
  obtain ⟨hAne, hAb⟩ := decimalValue_bytes A a hA
  obtain ⟨hBne, hBb⟩ := decimalValue_bytes B b hB
  have hsplit := trimSpace_bankLine n A B w0 w1 w2 w3 w4 w5 hw0 hw5 hBne hBb
  have h0 : (0x2C : Byte) ∉ strings.TrimLeftFunc (n ++ w1) unicode.IsSpace := by
    intro h
    have := mem_of_mem_trimLeftFunc _ _ _ h
    rcases List.mem_append.mp this with h | h
    · exact hn h
    · exact comma_not_blank w1 hw1 h
  have h1 : (0x2C : Byte) ∉ w2 ++ A ++ w3 := by
    intro h
    rcases List.mem_append.mp h with h | h
    · rcases List.mem_append.mp h with h | h
      · exact comma_not_blank w2 hw2 h
      · exact (numeralByte_facts _ (hAb _ h)).2.2 rfl
    · exact comma_not_blank w3 hw3 h
  have eA : storedBound (w2 ++ A ++ w3) = a := by
    rw [storedBound, trimSpace_wrapped w2 A w3 hw2 hw3 hAne hAb, atoi_decimal A a hA ha.1 ha.2]
  have eB : storedBound (w4 ++ B) = b := by
    have := trimSpace_wrapped w4 B [] hw4 (fun _ h => absurd h (by simp)) hBne hBb
    rw [List.append_nil] at this
    rw [storedBound, this, atoi_decimal B b hB hb.1 hb.2]
  rw [loadBankLine_three_fields _ _ _ _ hsplit h0 h1, eA, eB,
    trimSpace_trimLeft_append_blank n w1 hw1]
/-! ## The claims on `extractBIN` -/

/-- C6: for every string of at least six bytes whose first six characters are
the decimal digits `d1 .. d6`, `extractBIN` returns
`d1*100000 + d2*10000 + d3*1000 + d4*100 + d5*10 + d6`, whatever follows. -/
theorem extractBIN_six_digits (d1 d2 d3 d4 d5 d6 : Byte) (rest : Str)
    (h1 : isAsciiDigit d1 = true) (h2 : isAsciiDigit d2 = true) (h3 : isAsciiDigit d3 = true)
    (h4 : isAsciiDigit d4 = true) (h5 : isAsciiDigit d5 = true) (h6 : isAsciiDigit d6 = true) :
    extractBIN (d1 :: d2 :: d3 :: d4 :: d5 :: d6 :: rest)
      = ((digitValue d1 * 100000 + digitValue d2 * 10000 + digitValue d3 * 1000
          + digitValue d4 * 100 + digitValue d5 * 10 + digitValue d6 : Nat) : Int) := by
  have hlen : ¬ ((d1 :: d2 :: d3 :: d4 :: d5 :: d6 :: rest).length < 6) := by
    simp only [List.length_cons]
    omega
  have hm : d1 ≠ 0x2D := by
    intro e
    rw [e] at h1
    exact absurd h1 (by decide)
  have hp : d1 ≠ 0x2B := by
    intro e
    rw [e] at h1
    exact absurd h1 (by decide)
  have hd : isDigits [d1, d2, d3, d4, d5, d6] = true := by
    simp [isDigits, h1, h2, h3, h4, h5, h6]
  have hv : decimalValue [d1, d2, d3, d4, d5, d6]
      = some ((digitsFrom 0 [d1, d2, d3, d4, d5, d6] : Nat) : Int) := by
    simp only [decimalValue, if_neg hm, if_neg hp, hd, if_true]
  have hval : digitsFrom 0 [d1, d2, d3, d4, d5, d6]
      = digitValue d1 * 100000 + digitValue d2 * 10000 + digitValue d3 * 1000
          + digitValue d4 * 100 + digitValue d5 * 10 + digitValue d6 := by
    simp only [digitsFrom, List.foldl_cons, List.foldl_nil]
    ring
  have hb : ∀ d : Byte, isAsciiDigit d = true → digitValue d ≤ 9 := by
    intro d h
    simp only [isAsciiDigit, Bool.and_eq_true, decide_eq_true_eq] at h
    unfold digitValue
    omega
  have b1 := hb d1 h1
  have b2 := hb d2 h2
  have b3 := hb d3 h3
  have b4 := hb d4 h4
  have b5 := hb d5 h5
  have b6 := hb d6 h6
  have h63 : (2 : Int) ^ 63 = 9223372036854775808 := by norm_num
  rw [hval] at hv
  have key := atoi_decimal _ _ hv (by rw [h63]; omega) (by rw [h63]; omega)
  unfold extractBIN
  rw [if_neg hlen]
  simp only [List.take_succ_cons, List.take_zero]
  rw [key]

/-- C6, witness: the card number `4539578763621486` starts with `453957`, and
`extractBIN` returns 453957. -/
theorem extractBIN_six_digits_witness :
    extractBIN (0x34 :: 0x35 :: 0x33 :: 0x39 :: 0x35 :: 0x37 :: str "8763621486")
        = ((digitValue 0x34 * 100000 + digitValue 0x35 * 10000 + digitValue 0x33 * 1000
            + digitValue 0x39 * 100 + digitValue 0x35 * 10 + digitValue 0x37 : Nat) : Int) ∧
      str "4539578763621486"
        = 0x34 :: 0x35 :: 0x33 :: 0x39 :: 0x35 :: 0x37 :: str "8763621486" ∧
      extractBIN (str "4539578763621486") = 453957 :=
  ⟨extractBIN_six_digits 0x34 0x35 0x33 0x39 0x35 0x37 (str "8763621486")
      (by decide) (by decide) (by decide) (by decide) (by decide) (by decide),
    by decide, by decide⟩

/-- C7, the code at a failing input: `validateInput` and `validateLuhn` accept
the string `١٢٣٤٥٦٢`, which has 14 bytes, so `extractBIN` does not take its
short-input branch; its first six bytes are the three characters `١٢٣`, `Atoi`
fails on them with a syntax error, and `extractBIN` returns 0, not the integer
123456 that the first six characters form. -/
theorem extractBIN_arabicIndic :
    validateInput arabicIndicSample = true ∧
      validateLuhn arabicIndicSample = true ∧
      ¬ (arabicIndicSample.length < 6) ∧
      arabicIndicSample.take 6 = str "١٢٣" ∧
      strconv.Atoi (arabicIndicSample.take 6) = (0, some .ErrSyntax) ∧
      extractBIN arabicIndicSample = 0 := by
  refine ⟨by decide, by decide, by decide, by decide, by decide, by decide⟩
/-! ## The claims on `loadBankData` -/

/-- C8, counterexample: the line `X,1,2,3` is not skipped.  `SplitN` with
limit 3 cuts it into `X`, `1` and `2,3`, and the line contributes the record
`("X", 1, 0)`, so the table differs from the one loaded without the line. -/
theorem loadBankData_stray_fields_counterexample :
    loadBankData [str "X,1,2,3", str "ExampleBank, 400000, 400999"] none
        = ([⟨str "X", 1, 0⟩, ⟨str "ExampleBank", 400000, 400999⟩], none) ∧
      (loadBankData [str "X,1,2,3", str "ExampleBank, 400000, 400999"] none).1
        ≠ (loadBankData [str "ExampleBank, 400000, 400999"] none).1 := by
  refine ⟨by decide, by decide⟩

/-- C8, amended: a line whose trimmed text has more than two commas is cut at
its first two commas and contributes exactly one record: the name is the
trimmed text before the first comma, `BinFrom` is read from the text between
the first two commas and `BinTo` from everything after the second comma, stray
commas included.  No error is raised, and the lines before and after the line
contribute their records as they do without it. -/
theorem loadBankData_stray_fields (pre post : List Str) (text f0 f1 f2 : Str)
    (e : Option ScanError)
    (hsplit : strings.TrimSpace text = f0 ++ 0x2C :: (f1 ++ 0x2C :: f2))
    (h0 : (0x2C : Byte) ∉ f0) (h1 : (0x2C : Byte) ∉ f1) (_hstray : (0x2C : Byte) ∈ f2) :
    loadBankData (pre ++ text :: post) e
      = ((loadBankData pre e).1
          ++ { Name := strings.TrimSpace f0, BinFrom := storedBound f1, BinTo := storedBound f2 }
            :: (loadBankData post e).1, e) := by
  rw [loadBankData_append_cons, loadBankLine_three_fields text f0 f1 f2 hsplit h0 h1]
  simp

/-- C8, witness: the line `X,1,2,3` between two well-formed lines. -/
theorem loadBankData_stray_fields_witness :
    loadBankData ([str "A,1,2"] ++ str "X,1,2,3" :: [str "ExampleBank, 400000, 400999"]) none
        = ((loadBankData [str "A,1,2"] none).1
            ++ { Name := strings.TrimSpace (str "X"), BinFrom := storedBound (str "1"),
                 BinTo := storedBound (str "2,3") }
              :: (loadBankData [str "ExampleBank, 400000, 400999"] none).1, none) ∧
      (strings.TrimSpace (str "X") = str "X" ∧ storedBound (str "1") = 1 ∧
        storedBound (str "2,3") = 0) :=
  ⟨loadBankData_stray_fields [str "A,1,2"] [str "ExampleBank, 400000, 400999"]
      (str "X,1,2,3") (str "X") (str "1") (str "2,3") none (by decide) (by decide) (by decide)
      (by decide),
    by decide⟩

/-- C9: for every name `n` containing no comma and every pair of integers `a`
and `b` fitting the 64-bit `int`, written as decimal numerals `A` and `B`, the
line `n , A , B` with arbitrary blanks (spaces and tabs among them) around the
line and around each field is loaded as exactly one record, with the name `n`
trimmed, `BinFrom = a` and `BinTo = b`; the error is the one of the scanner. -/
theorem loadBankData_wellformed_line (pre post : List Str)
    (n A B w0 w1 w2 w3 w4 w5 : Str) (a b : Int) (e : Option ScanError)
    (hn : (0x2C : Byte) ∉ n)
    (hw0 : allBlank w0) (hw1 : allBlank w1) (hw2 : allBlank w2) (hw3 : allBlank w3)
    (hw4 : allBlank w4) (hw5 : allBlank w5)
    (hA : decimalValue A = some a) (hB : decimalValue B = some b)
    (ha : -(2 : Int) ^ 63 ≤ a ∧ a < (2 : Int) ^ 63)
    (hb : -(2 : Int) ^ 63 ≤ b ∧ b < (2 : Int) ^ 63) :
    loadBankData (pre ++ bankLine n A B w0 w1 w2 w3 w4 w5 :: post) e
      = ((loadBankData pre e).1
          ++ { Name := strings.TrimSpace n, BinFrom := a, BinTo := b }
            :: (loadBankData post e).1, e) := by
  rw [loadBankData_append_cons,
    loadBankLine_bankLine n A B w0 w1 w2 w3 w4 w5 a b hn hw0 hw1 hw2 hw3 hw4 hw5 hA hB ha hb]
  simp

/-- C9, witness: the line `ExampleBank, 400000, 400999` loads as
`("ExampleBank", 400000, 400999)`. -/
theorem loadBankData_wellformed_line_witness :
    loadBankData ([] ++ bankLine (str "ExampleBank") (str "400000") (str "400999")
          [] [] (str " ") [] (str " ") [] :: []) none
        = ((loadBankData [] none).1
            ++ { Name := strings.TrimSpace (str "ExampleBank"), BinFrom := 400000,
                 BinTo := 400999 }
              :: (loadBankData [] none).1, none) ∧
      bankLine (str "ExampleBank") (str "400000") (str "400999") [] [] (str " ") [] (str " ") []
        = str "ExampleBank, 400000, 400999" ∧
      loadBankData [str "ExampleBank, 400000, 400999"] none
        = ([⟨str "ExampleBank", 400000, 400999⟩], none) :=
  ⟨loadBankData_wellformed_line [] [] (str "ExampleBank") (str "400000") (str "400999")
      [] [] (str " ") [] (str " ") [] 400000 400999 none (by decide) (by decide) (by decide)
      (by decide) (by decide) (by decide) (by decide) (by decide) (by decide)
      (by decide) (by decide),
    by decide, by decide⟩

/-- C10, counterexample: a lower bound too large for the 64-bit `int` is not
stored as 0.  `Atoi` returns `2^63 - 1` together with its range error, and the
loader stores that value. -/
theorem loadBankData_unparsed_bounds_counterexample :
    loadBankData [str "X,99999999999999999999,5"] none
        = ([⟨str "X", 9223372036854775807, 5⟩], none) ∧
      strconv.Atoi (str "99999999999999999999")
        = (9223372036854775807, some .ErrRange) := by
  refine ⟨by decide, by decide⟩

/-- C10, amended: a line that splits into three fields gives exactly one
record and no error.  A bound field on which `Atoi` reports a syntax error (an
empty field, or text whose first byte is neither a sign nor a digit, among
others) is stored as 0; a decimal numeral above the 64-bit range is stored as
`2^63 - 1` and one below it as `-2^63`; a decimal numeral within the range is
stored as its value. -/
theorem loadBankData_unparsed_bounds (pre post : List Str) (text f0 f1 f2 : Str)
    (e : Option ScanError)
    (hsplit : strings.TrimSpace text = f0 ++ 0x2C :: (f1 ++ 0x2C :: f2))
    (h0 : (0x2C : Byte) ∉ f0) (h1 : (0x2C : Byte) ∉ f1) :
    loadBankData (pre ++ text :: post) e
        = ((loadBankData pre e).1
            ++ { Name := strings.TrimSpace f0, BinFrom := storedBound f1,
                 BinTo := storedBound f2 }
              :: (loadBankData post e).1, e) ∧
      ∀ f : Str,
        ((strconv.Atoi (strings.TrimSpace f)).2 = some .ErrSyntax → storedBound f = 0) ∧
        (strings.TrimSpace f = [] → storedBound f = 0) ∧
        (∀ (c : Byte) (rest : Str), strings.TrimSpace f = c :: rest → c ≠ 0x2D → c ≠ 0x2B →
          isAsciiDigit c = false → storedBound f = 0) ∧
        (∀ a : Int, decimalValue (strings.TrimSpace f) = some a → (2 : Int) ^ 63 ≤ a →
          storedBound f = 9223372036854775807) ∧
        (∀ a : Int, decimalValue (strings.TrimSpace f) = some a → a < -(2 : Int) ^ 63 →
          storedBound f = -9223372036854775808) ∧
        (∀ a : Int, decimalValue (strings.TrimSpace f) = some a → -(2 : Int) ^ 63 ≤ a →
          a < (2 : Int) ^ 63 → storedBound f = a) := by
  refine ⟨?_, fun f => ⟨?_, ?_, ?_, ?_, ?_, ?_⟩⟩
  · rw [loadBankData_append_cons, loadBankLine_three_fields text f0 f1 f2 hsplit h0 h1]
    simp
  · exact atoi_syntax_zero _
  · intro h
    rw [storedBound, h, atoi_nil]
  · intro c rest h hm hp hd
    rw [storedBound, h, atoi_bad_first c rest hm hp hd]
  · intro a h hge
    rw [storedBound, atoi_too_large _ a h hge]
  · intro a h hlt
    rw [storedBound, atoi_too_small _ a h hlt]
  · intro a h hlo hhi
    rw [storedBound, atoi_decimal _ a h hlo hhi]

/-- C10, witness: in the line `X,99999999999999999999,abc` the lower bound is
stored as `2^63 - 1` and the upper bound as 0. -/
theorem loadBankData_unparsed_bounds_witness :
    loadBankData [str "X,99999999999999999999,abc"] none
        = ([⟨str "X", 9223372036854775807, 0⟩], none) ∧
      storedBound (str "99999999999999999999") = 9223372036854775807 ∧
      storedBound (str "abc") = 0 :=
  ⟨(loadBankData_unparsed_bounds [] [] (str "X,99999999999999999999,abc") (str "X")
      (str "99999999999999999999") (str "abc") none (by decide) (by decide) (by decide)).1.trans
      (by decide),
    by decide, by decide⟩
/-! ## The loop bounds of the model are large enough -/

/-- The loop of `lastIndexFunc` gives the same result for every bound that is
at least the length of the prefix: the bound `len(s)` never cuts it short. -/
theorem lastIndexFuncLoop_fuel (f : Nat → Bool) (truth : Bool) :
    ∀ (fuel1 fuel2 : Nat) (p : Str), p.length ≤ fuel1 → p.length ≤ fuel2 →
      strings.lastIndexFuncLoop f truth fuel1 p = strings.lastIndexFuncLoop f truth fuel2 p := by
  intro fuel1
  induction fuel1 with
  | zero =>
    intro fuel2 p h1 _
    have hp : p.length = 0 := by omega
    cases fuel2 with
    | zero => rfl
    | succ fuel2 => rw [strings.lastIndexFuncLoop, strings.lastIndexFuncLoop, if_pos hp]
  | succ fuel1 ih =>
    intro fuel2 p h1 h2
    cases fuel2 with
    | zero =>
      have hp : p.length = 0 := by omega
      rw [strings.lastIndexFuncLoop, strings.lastIndexFuncLoop, if_pos hp]
    | succ fuel2 =>
      rw [strings.lastIndexFuncLoop, strings.lastIndexFuncLoop]
      by_cases hp : p.length = 0
      · rw [if_pos hp, if_pos hp]
      · have hne : p ≠ [] := by intro h0; simp [h0] at hp
        have hpos := decodeLastRune_size_pos p hne
        rw [if_neg hp, if_neg hp]
        by_cases hf : f (strings.DecodeLastRuneInString p).1 = truth
        · rw [if_pos hf, if_pos hf]
        · rw [if_neg hf, if_neg hf]
          apply ih
          · rw [List.length_take]
            omega
          · rw [List.length_take]
            omega

/-- The backward scan of `DecodeLastRuneInString` gives the same start for
every bound above `k - lim`, the number of bytes it can step over. -/
theorem lastRuneStart_fuel (s : Str) (lim : Nat) :
    ∀ (fuel1 fuel2 k : Nat), k - lim < fuel1 → k - lim < fuel2 →
      strings.lastRuneStart s lim fuel1 k = strings.lastRuneStart s lim fuel2 k := by
  intro fuel1
  induction fuel1 with
  | zero => intro fuel2 k h1 _; omega
  | succ fuel1 ih =>
    intro fuel2 k h1 h2
    cases fuel2 with
    | zero => omega
    | succ fuel2 =>
      rw [strings.lastRuneStart, strings.lastRuneStart]
      by_cases hk : k = 0
      · rw [if_pos hk, if_pos hk]
      · rw [if_neg hk, if_neg hk]
        by_cases hl : k - 1 < lim
        · rw [if_pos hl, if_pos hl]
        · rw [if_neg hl, if_neg hl]
          by_cases hr : utf8.RuneStart (s.getD (k - 1) 0) = true
          · rw [if_pos hr, if_pos hr]
          · rw [if_neg hr, if_neg hr]
            exact ih fuel2 (k - 1) (by omega) (by omega)

/-- The bound 4 used by `DecodeLastRuneInString` is large enough: every larger
bound gives the same start. -/
theorem lastRuneStart_four (s : Str) (extra : Nat) :
    strings.lastRuneStart s (s.length - 4) (4 + extra) (s.length - 1)
      = strings.lastRuneStart s (s.length - 4) 4 (s.length - 1) :=
  lastRuneStart_fuel s (s.length - 4) (4 + extra) 4 (s.length - 1) (by omega) (by omega)

/-! ## The library models on examples -/

/-- Go's `TrimSpace` removes ASCII and Unicode white space at both ends and keeps
inner spaces and bytes that are not valid UTF-8. -/
theorem trimSpace_examples :
    strings.TrimSpace (str "  \t ab c \t") = str "ab c" ∧
      strings.TrimSpace (str "\u00a0 Сбер банк \u2003 ") = str "Сбер банк" ∧
      strings.TrimSpace (str "x\u3000 \u3000") = str "x" ∧
      strings.TrimSpace (str "   ") = [] ∧
      strings.TrimSpace ([0x41, 0xE2, 0x80, 0x20] : Str) = [0x41, 0xE2, 0x80] := by
  refine ⟨by decide, by decide, by decide, by decide, by decide⟩

/-- Go's `SplitN` with limit 3 cuts at the first two separators only. -/
theorem splitN_examples :
    strings.SplitN (str "X,1,2,3") 0x2C 3 = [str "X", str "1", str "2,3"] ∧
      strings.SplitN (str "X,1") 0x2C 3 = [str "X", str "1"] ∧
      strings.SplitN (str ",") 0x2C 3 = [str "", str ""] ∧
      strings.SplitN (str ",,") 0x2C 3 = [str "", str "", str ""] := by
  refine ⟨by decide, by decide, by decide, by decide⟩

/-- Go's `Atoi` on numerals at the edge of the 64-bit range and on text that is not
a numeral. -/
theorem atoi_examples :
    strconv.Atoi (str "9223372036854775807") = (9223372036854775807, none) ∧
      strconv.Atoi (str "9223372036854775808") = (9223372036854775807, some .ErrRange) ∧
      strconv.Atoi (str "-9223372036854775808") = (-9223372036854775808, none) ∧
      strconv.Atoi (str "-9223372036854775809") = (-9223372036854775808, some .ErrRange) ∧
      strconv.Atoi (str "+42") = (42, none) ∧
      strconv.Atoi (str "2,3") = (0, some .ErrSyntax) ∧
      strconv.Atoi (str "") = (0, some .ErrSyntax) ∧
      strconv.Atoi (str "99999999999999999999x") = (9223372036854775807, some .ErrRange) := by
  refine ⟨by decide, by decide, by decide, by decide, by decide, by decide, by decide, by decide⟩

/-! ## Strings of ASCII bytes -/

theorem rangeRunes_cons_ascii (b : Byte) (rest : Str) (hb : b.val < 0x80) :
    rangeRunes 0 (b :: rest) = b.val :: rangeRunes 0 rest := by
  simp only [rangeRunes, decodeRune_ascii b rest hb, Nat.sub_self]

theorem rangeRunes_ascii (s : Str) (h : ∀ b ∈ s, b.val < 0x80) :
    rangeRunes 0 s = s.map (fun b => b.val) := by
  induction s with
  | nil => rfl
  | cons b rest ih =>
    have hb : b.val < 0x80 := h b (List.mem_cons_self _ _)
    rw [rangeRunes_cons_ascii b rest hb, List.map_cons,
      ih (fun c hc => h c (List.mem_cons_of_mem _ hc))]

theorem validateInputLoop_digits (s : Str) (h : ∀ b ∈ s, isAsciiDigit b = true) :
    validateInputLoop (s.map (fun b => b.val)) = true := by
  induction s with
  | nil => rfl
  | cons b rest ih =>
    have hb := h b (List.mem_cons_self _ _)
    simp only [isAsciiDigit, Bool.and_eq_true, decide_eq_true_eq] at hb
    have hd : unicode.IsDigit b.val = true := by
      unfold unicode.IsDigit
      rw [if_pos (by omega)]
      simp [hb.1, hb.2]
    rw [List.map_cons, validateInputLoop, hd]
    simpa using ih (fun c hc => h c (List.mem_cons_of_mem _ hc))

/-- C12: every string of between 13 and 19 characters, each one of `'0'..'9'`,
is accepted by `validateInput` (such a string has as many bytes as
characters). -/
theorem validateInput_digit_strings (s : Str) (hlo : 13 ≤ s.length) (hhi : s.length ≤ 19)
    (hd : ∀ b ∈ s, isAsciiDigit b = true) :
    validateInput s = true := by
  have hascii : ∀ b ∈ s, b.val < 0x80 := by
    intro b hb
    have := hd b hb
    simp only [isAsciiDigit, Bool.and_eq_true, decide_eq_true_eq] at this
    omega
  unfold validateInput
  rw [if_neg (by simp; omega), rangeRunes_ascii s hascii]
  exact validateInputLoop_digits s hd

/-- C12, witness: thirteen zeros, and nineteen digits with leading zeros. -/
theorem validateInput_digit_strings_witness :
    validateInput (str "0000000000000") = true ∧
      validateInput (str "0004539578763621486") = true :=
  ⟨validateInput_digit_strings (str "0000000000000") (by decide) (by decide) (by decide),
    validateInput_digit_strings (str "0004539578763621486") (by decide) (by decide)
      (by decide)⟩

/-! ## `extractBIN` on short strings -/

theorem atoiFastLoop_bad (ds : Str) :
    ∀ n : Nat, (∃ b ∈ ds, 0x80 ≤ b.val) → strconv.atoiFastLoop ds n = none := by
  induction ds with
  | nil => intro n h; obtain ⟨b, hb, _⟩ := h; simp at hb
  | cons c ds ih =>
    intro n h
    rw [strconv.atoiFastLoop]
    by_cases hc : (c.val + 256 - 0x30) % 256 > 9
    · rw [if_pos hc]
    · rw [if_neg hc]
      apply ih
      obtain ⟨b, hb, hge⟩ := h
      rcases List.mem_cons.mp hb with e | e
      · rw [e] at hge
        omega
      · exact ⟨b, e, hge⟩

theorem atoi_non_ascii (s : Str) (hlen : s.length < 19) (h : ∃ b ∈ s, 0x80 ≤ b.val) :
    (strconv.Atoi s).1 = 0 := by
  cases s with
  | nil => rfl
  | cons s0 rest =>
    rw [atoi_fast s0 rest hlen]
    by_cases hsign : s0 = 0x2D ∨ s0 = 0x2B
    · have hrest : ∃ b ∈ rest, 0x80 ≤ b.val := by
        obtain ⟨b, hb, hge⟩ := h
        rcases List.mem_cons.mp hb with e | e
        · rw [e] at hge
          rcases hsign with e2 | e2 <;> rw [e2] at hge <;> exact absurd hge (by decide)
        · exact ⟨b, e, hge⟩
      rw [if_pos hsign, atoiFastLoop_bad rest 0 hrest]
      split_ifs <;> rfl
    · rw [if_neg hsign, atoiFastLoop_bad (s0 :: rest) 0 h]
      split_ifs <;> rfl

theorem six_le_runeCount (b1 b2 b3 b4 b5 b6 : Byte) (rest : Str)
    (h : ∀ b ∈ [b1, b2, b3, b4, b5, b6], b.val < 0x80) :
    6 ≤ runeCount (b1 :: b2 :: b3 :: b4 :: b5 :: b6 :: rest) := by
  have h1 := h b1 (by simp)
  have h2 := h b2 (by simp)
  have h3 := h b3 (by simp)
  have h4 := h b4 (by simp)
  have h5 := h b5 (by simp)
  have h6 := h b6 (by simp)
  unfold runeCount
  rw [rangeRunes_cons_ascii _ _ h1, rangeRunes_cons_ascii _ _ h2, rangeRunes_cons_ascii _ _ h3,
    rangeRunes_cons_ascii _ _ h4, rangeRunes_cons_ascii _ _ h5, rangeRunes_cons_ascii _ _ h6]
  simp

/-- C13: for every string with fewer than 6 bytes, and also for every string
with fewer than 6 characters, `extractBIN` returns 0, whatever its bytes are.
A string of at least 6 bytes and fewer than 6 characters has a byte outside
ASCII among its first six, on which `Atoi` fails with value 0. -/
theorem extractBIN_short (s : Str) (h : s.length < 6 ∨ runeCount s < 6) :
    extractBIN s = 0 := by
  unfold extractBIN
  by_cases hlen : s.length < 6
  · rw [if_pos hlen]
  · rw [if_neg hlen]
    have hr : runeCount s < 6 := by
      rcases h with h | h
      · exact absurd h hlen
      · exact h
    rcases s with _ | ⟨b1, _ | ⟨b2, _ | ⟨b3, _ | ⟨b4, _ | ⟨b5, _ | ⟨b6, rest⟩⟩⟩⟩⟩⟩ <;>
      try (simp only [List.length_cons, List.length_nil] at hlen; omega)
    simp only [List.take_succ_cons, List.take_zero]
    apply atoi_non_ascii _ (by simp)
    by_contra hall
    have hascii : ∀ b ∈ [b1, b2, b3, b4, b5, b6], b.val < 0x80 := by
      intro b hb
      by_contra hge
      exact hall ⟨b, hb, by omega⟩
    have := six_le_runeCount b1 b2 b3 b4 b5 b6 rest hascii
    omega

/-- C13, witness: the empty string, a string of five digits, and the five
characters `Сбер1` (9 bytes). -/
theorem extractBIN_short_witness :
    extractBIN [] = 0 ∧ extractBIN (str "45395") = 0 ∧
      (runeCount (str "Сбер1") = 5 ∧ (str "Сбер1").length = 9 ∧
        extractBIN (str "Сбер1") = 0) :=
  ⟨extractBIN_short [] (Or.inl (by decide)),
    extractBIN_short (str "45395") (Or.inl (by decide)),
    by decide, by decide, extractBIN_short (str "Сбер1") (Or.inr (by decide))⟩

/-! ## Algebraic laws of `identifyBank` -/

/-- C17: concatenation law.  When some record of `t1` holds the BIN,
`identifyBank` on `t1 ++ t2` answers as on `t1`; otherwise it answers as on
`t2`.  Appending records never changes the answer for a BIN that already
matched. -/
theorem identifyBank_append (b : Int) (t1 t2 : List Bank) :
    ((∃ r ∈ t1, r.BinFrom ≤ b ∧ b ≤ r.BinTo) →
        identifyBank b (t1 ++ t2) = identifyBank b t1) ∧
      ((¬ ∃ r ∈ t1, r.BinFrom ≤ b ∧ b ≤ r.BinTo) →
        identifyBank b (t1 ++ t2) = identifyBank b t2) := by
  induction t1 with
  | nil =>
    refine ⟨?_, fun _ => rfl⟩
    intro h
    obtain ⟨r, hr, _⟩ := h
    simp at hr
  | cons bank banks ih =>
    by_cases hb : bank.BinFrom ≤ b ∧ b ≤ bank.BinTo
    · refine ⟨fun _ => ?_, fun h => absurd ⟨bank, List.mem_cons_self _ _, hb⟩ h⟩
      simp [identifyBank, hb]
    · have hstep : ∀ t : List Bank, identifyBank b (bank :: t) = identifyBank b t := by
        intro t
        rw [identifyBank]
        simp only [ge_iff_le, Bool.and_eq_true, decide_eq_true_eq, hb, if_false]
      rw [List.cons_append, hstep, hstep]
      refine ⟨fun h => ih.1 ?_, fun h => ih.2 ?_⟩
      · obtain ⟨r, hr, hin⟩ := h
        rcases List.mem_cons.mp hr with e | e
        · rw [e] at hin
          exact absurd hin hb
        · exact ⟨r, e, hin⟩
      · intro h2
        obtain ⟨r, hr, hin⟩ := h2
        exact h ⟨r, List.mem_cons_of_mem _ hr, hin⟩

/-- C17, witness: the BIN 400500 matches in the overlap table, so a further
record does not change the answer; the BIN 999999 does not, so the answer is
the one of the appended table. -/
theorem identifyBank_append_witness :
    identifyBank 400500 (overlapTable ++ [⟨str "BankC", 0, 999999⟩])
        = identifyBank 400500 overlapTable ∧
      identifyBank 999999 (overlapTable ++ [⟨str "BankC", 0, 999999⟩])
        = identifyBank 999999 [⟨str "BankC", 0, 999999⟩] ∧
      identifyBank 999999 (overlapTable ++ [⟨str "BankC", 0, 999999⟩]) = str "BankC" :=
  ⟨(identifyBank_append 400500 overlapTable [⟨str "BankC", 0, 999999⟩]).1 (by decide),
    (identifyBank_append 999999 overlapTable [⟨str "BankC", 0, 999999⟩]).2 (by decide),
    by decide⟩

/-- C18: records with `BinFrom > BinTo` are inert.  Removing all of them from
the table, the order of the others kept, does not change the answer of
`identifyBank` for any BIN. -/
theorem identifyBank_filter_inverted (b : Int) (t : List Bank) :
    identifyBank b t
      = identifyBank b (t.filter (fun r => !decide (r.BinFrom > r.BinTo))) := by
  induction t with
  | nil => rfl
  | cons bank banks ih =>
    by_cases hinv : bank.BinFrom > bank.BinTo
    · have hb : ¬ (bank.BinFrom ≤ b ∧ b ≤ bank.BinTo) := by omega
      rw [List.filter_cons]
      simp only [hinv, decide_True, Bool.not_true, Bool.false_eq_true, if_false]
      rw [identifyBank]
      simp only [ge_iff_le, Bool.and_eq_true, decide_eq_true_eq, hb, if_false]
      exact ih
    · rw [List.filter_cons]
      simp only [hinv, decide_False, Bool.not_false, if_true]
      rw [identifyBank, identifyBank, ih]

/-! ## Check digits and adjacent transpositions -/

theorem validateLuhn_append_digit (p : Str) (c : Byte) (hc : isAsciiDigit c = true) :
    validateLuhn (p ++ [c])
      = ((digitValue c + luhnRev p.reverse true) % 10 == 0) := by
  simp only [isAsciiDigit, Bool.and_eq_true, decide_eq_true_eq] at hc
  have h1 : (c.val + 256 - 0x30) % 256 = c.val - 0x30 := by omega
  rw [validateLuhn_eq, List.reverse_append, List.reverse_singleton, List.singleton_append,
    luhnRev]
  simp only [luhnAdj, Bool.false_eq_true, if_false, h1, digitValue, Bool.not_false]

/-- C15: check-digit existence and uniqueness.  For every string `p` (of
digits `'0'..'9'` or of any other bytes, empty or not) there is exactly one
digit character `c` in `'0'..'9'` such that `validateLuhn` accepts `p` followed
by `c`. -/
theorem validateLuhn_check_digit (p : Str) :
    ∃! c : Byte, isAsciiDigit c = true ∧ validateLuhn (p ++ [c]) = true := by
  generalize hS : luhnRev p.reverse true = S
  have hlt : 0x30 + (10 - S % 10) % 10 < 256 := by omega
  refine ⟨⟨0x30 + (10 - S % 10) % 10, hlt⟩, ⟨?_, ?_⟩, ?_⟩
  · simp only [isAsciiDigit, Bool.and_eq_true, decide_eq_true_eq]
    omega
  · have hd : isAsciiDigit (⟨0x30 + (10 - S % 10) % 10, hlt⟩ : Byte) = true := by
      simp only [isAsciiDigit, Bool.and_eq_true, decide_eq_true_eq]
      omega
    rw [validateLuhn_append_digit p _ hd, hS]
    simp only [digitValue, beq_iff_eq]
    omega
  · intro c ⟨hc, hv⟩
    rw [validateLuhn_append_digit p c hc, hS] at hv
    simp only [isAsciiDigit, Bool.and_eq_true, decide_eq_true_eq] at hc
    simp only [digitValue, beq_iff_eq] at hv
    apply Fin.ext
    simp only []
    omega

theorem luhnDouble_swap :
    ∀ da db : Fin 10, da ≠ db →
      ((luhnDouble da.val + db.val) % 10 = (luhnDouble db.val + da.val) % 10
        ↔ (da.val = 0 ∧ db.val = 9) ∨ (da.val = 9 ∧ db.val = 0)) := by
  decide

theorem luhnAdj_swap (flag : Bool) (a b : Byte) (ha : isAsciiDigit a = true)
    (hb : isAsciiDigit b = true) (hne : a ≠ b) :
    ((luhnAdj flag a + luhnAdj (!flag) b) % 10 = (luhnAdj flag b + luhnAdj (!flag) a) % 10
      ↔ (a = 0x30 ∧ b = 0x39) ∨ (a = 0x39 ∧ b = 0x30)) := by
  simp only [isAsciiDigit, Bool.and_eq_true, decide_eq_true_eq] at ha hb
  have h1 : (a.val + 256 - 0x30) % 256 = a.val - 0x30 := by omega
  have h2 : (b.val + 256 - 0x30) % 256 = b.val - 0x30 := by omega
  have hva : a.val - 0x30 < 10 := by omega
  have hvb : b.val - 0x30 < 10 := by omega
  have hab : (⟨a.val - 0x30, hva⟩ : Fin 10) ≠ ⟨b.val - 0x30, hvb⟩ := by
    intro e
    have := congrArg Fin.val e
    simp only [] at this
    exact hne (Fin.ext (by omega))
  have e1 : ∀ x : Byte, luhnAdj true x = luhnDouble ((x.val + 256 - 0x30) % 256) := by
    intro x
    simp [luhnAdj, luhnDouble]
  have e0 : ∀ x : Byte, luhnAdj false x = (x.val + 256 - 0x30) % 256 := by
    intro x
    simp [luhnAdj]
  have ea0 : a = 0x30 ↔ a.val - 0x30 = 0 := by
    rw [Fin.ext_iff]
    constructor <;> intro h <;> simp at h ⊢ <;> omega
  have ea9 : a = 0x39 ↔ a.val - 0x30 = 9 := by
    rw [Fin.ext_iff]
    constructor <;> intro h <;> simp at h ⊢ <;> omega
  have eb0 : b = 0x30 ↔ b.val - 0x30 = 0 := by
    rw [Fin.ext_iff]
    constructor <;> intro h <;> simp at h ⊢ <;> omega
  have eb9 : b = 0x39 ↔ b.val - 0x30 = 9 := by
    rw [Fin.ext_iff]
    constructor <;> intro h <;> simp at h ⊢ <;> omega
  rw [ea0, ea9, eb0, eb9]
  cases flag with
  | true =>
    have key := luhnDouble_swap ⟨a.val - 0x30, hva⟩ ⟨b.val - 0x30, hvb⟩ hab
    simp only [Bool.not_true, e1, e0, h1, h2]
    exact key
  | false =>
    have key := luhnDouble_swap ⟨b.val - 0x30, hvb⟩ ⟨a.val - 0x30, hva⟩ (Ne.symm hab)
    simp only [Bool.not_false, e1, e0, h1, h2]
    simp only [] at key
    constructor
    · intro h
      have := key.mp (by omega)
      omega
    · intro h
      have := key.mpr (by omega)
      omega
theorem luhnRev_two (front back : Str) (double : Bool) :
    ∃ (flag : Bool) (rest : Nat), ∀ u v : Byte,
      luhnRev (front ++ u :: v :: back) double
        = rest + (luhnAdj flag u + luhnAdj (!flag) v) := by
  obtain ⟨flag, hflag⟩ := luhnRev_append_cons front double
  refine ⟨flag, luhnRev front double + luhnRev back (!(!flag)), fun u v => ?_⟩
  rw [hflag, luhnRev]
  omega

/-- C16: adjacent-transposition detection.  For every string that
`validateLuhn` accepts (of characters `'0'..'9'`, or with any other bytes
around the two positions) and every two adjacent positions holding different
digits `a` and `b`, `validateLuhn` accepts the string with the two swapped
exactly when the two digits are `0` and `9`. -/
theorem validateLuhn_adjacent_transposition (pre post : Str) (a b : Byte)
    (ha : isAsciiDigit a = true) (hb : isAsciiDigit b = true) (hne : a ≠ b)
    (hv : validateLuhn (pre ++ a :: b :: post) = true) :
    validateLuhn (pre ++ b :: a :: post) = true
      ↔ (a = 0x30 ∧ b = 0x39) ∨ (a = 0x39 ∧ b = 0x30) := by
  have r1 : (pre ++ a :: b :: post).reverse = post.reverse ++ b :: a :: pre.reverse := by
    simp [List.reverse_append, List.reverse_cons, List.append_assoc]
  have r2 : (pre ++ b :: a :: post).reverse = post.reverse ++ a :: b :: pre.reverse := by
    simp [List.reverse_append, List.reverse_cons, List.append_assoc]
  obtain ⟨flag, rest, hsum⟩ := luhnRev_two post.reverse pre.reverse false
  rw [validateLuhn_eq, r1, hsum b a] at hv
  rw [validateLuhn_eq, r2, hsum a b]
  simp only [beq_iff_eq] at hv ⊢
  rw [← luhnAdj_swap flag a b ha hb hne]
  constructor
  · intro h
    omega
  · intro h
    omega

/-- C16, witness: in the accepted number `4539578763621486` the digits `5` and
`3` at positions 1 and 2 are swapped and the result is rejected; in the
accepted number `0901` the leading `0` and `9` are swapped and the result is
accepted. -/
theorem validateLuhn_adjacent_transposition_witness :
    (validateLuhn (str "4539578763621486") = true ∧
        ¬ (validateLuhn (str "4" ++ 0x33 :: 0x35 :: str "9578763621486") = true) ∧
        str "4" ++ 0x33 :: 0x35 :: str "9578763621486" = str "4359578763621486") ∧
      (validateLuhn (str "0901") = true ∧
        validateLuhn ([] ++ 0x39 :: 0x30 :: str "01") = true ∧
        [] ++ 0x39 :: 0x30 :: str "01" = str "9001") :=
  ⟨⟨by decide,
      fun hv => absurd
        ((validateLuhn_adjacent_transposition (str "4") (str "9578763621486") 0x35 0x33
          (by decide) (by decide) (by decide) (by decide)).mp hv) (by decide),
      by decide⟩,
    by decide,
    (validateLuhn_adjacent_transposition [] (str "01") 0x30 0x39
      (by decide) (by decide) (by decide) (by decide)).mpr (Or.inl ⟨rfl, rfl⟩),
    by decide⟩

/-! ## Lines with fewer than two commas -/

theorem comma_not_mem_beforeComma (s : Str) : (0x2C : Byte) ∉ beforeComma s := by
  intro h
  have := List.mem_takeWhile_imp h
  simp at this

theorem cut_at_comma (s : Str) (h : (0x2C : Byte) ∈ s) :
    s = beforeComma s ++ 0x2C :: afterComma s := by
  induction s with
  | nil => simp at h
  | cons b rest ih =>
    by_cases hb : b = 0x2C
    · simp [beforeComma, afterComma, hb]
    · have hrest : (0x2C : Byte) ∈ rest := by
        rcases List.mem_cons.mp h with e | e
        · exact absurd e.symm hb
        · exact e
      have key := ih hrest
      unfold beforeComma afterComma at key ⊢
      have hne : (b != 0x2C) = true := by simpa using hb
      rw [List.takeWhile_cons, List.dropWhile_cons, if_pos hne, if_pos hne, List.cons_append,
        ← key]

theorem count_cut (s : Str) (h : (0x2C : Byte) ∈ s) :
    s.count 0x2C = (afterComma s).count 0x2C + 1 := by
  have e := cut_at_comma s h
  have h0 := List.count_eq_zero.mpr (comma_not_mem_beforeComma s)
  conv_lhs => rw [e]
  rw [List.count_append, List.count_cons_self, h0]
  omega

theorem indexByte_count (c : Byte) (s : Str) :
    ∀ m : Nat, strings.IndexByte s c = some m → (s.drop (m + 1)).count c + 1 ≤ s.count c := by
  induction s with
  | nil => intro m h; simp [strings.IndexByte] at h
  | cons b rest ih =>
    intro m h
    rw [strings.IndexByte] at h
    by_cases hb : b = c
    · rw [if_pos hb] at h
      have hm : m = 0 := by simpa using h.symm
      rw [hm, hb]
      simp
    · rw [if_neg hb] at h
      cases hi : strings.IndexByte rest c with
      | none => rw [hi] at h; simp at h
      | some k =>
        rw [hi] at h
        have hm : m = k + 1 := by simpa using h.symm
        have key := ih k hi
        rw [hm, List.drop_succ_cons, List.count_cons_of_ne (Ne.symm hb)]
        exact key

theorem genSplitLoop_length_le (c : Byte) :
    ∀ (k : Nat) (s : Str), (strings.genSplitLoop c k s).length ≤ s.count c + 1 := by
  intro k
  induction k with
  | zero => intro s; simp [strings.genSplitLoop]
  | succ k ih =>
    intro s
    rw [strings.genSplitLoop]
    cases hi : strings.IndexByte s c with
    | none => simp
    | some m =>
      have h1 := indexByte_count c s m hi
      have h2 := ih (s.drop (m + 1))
      simp only [List.length_cons]
      omega

/-- A string with fewer than two separators is not cut in three. -/
theorem splitN_few (s : Str) (c : Byte) (h : s.count c < 2) :
    (strings.SplitN s c 3).length ≠ 3 := by
  unfold strings.SplitN
  rw [if_neg (by decide)]
  have := genSplitLoop_length_le c ((if 3 > s.length + 1 then s.length + 1 else 3) - 1) s
  omega

/-- The scan loop is the specification's reading of a line. -/
theorem loadBankLine_eq_lineRecord (text : Str) :
    loadBankLine [] text = (lineRecord text).toList := by
  by_cases hempty : strings.TrimSpace text = []
  · unfold loadBankLine lineRecord
    simp [hempty]
  · by_cases hcount : 2 ≤ (strings.TrimSpace text).count 0x2C
    · have hm1 : (0x2C : Byte) ∈ strings.TrimSpace text :=
        List.count_pos_iff.mp (by omega)
      have hc1 := count_cut _ hm1
      have hm2 : (0x2C : Byte) ∈ afterComma (strings.TrimSpace text) :=
        List.count_pos_iff.mp (by omega)
      have hsplit : strings.TrimSpace text
          = beforeComma (strings.TrimSpace text) ++ 0x2C ::
              (beforeComma (afterComma (strings.TrimSpace text)) ++ 0x2C ::
                afterComma (afterComma (strings.TrimSpace text))) := by
        conv_lhs => rw [cut_at_comma _ hm1]
        conv_lhs => rw [cut_at_comma _ hm2]
      rw [loadBankLine_three_fields text _ _ _ hsplit (comma_not_mem_beforeComma _)
        (comma_not_mem_beforeComma _)]
      unfold lineRecord
      rw [if_pos ⟨hempty, hcount⟩]
      rfl
    · have hfew := splitN_few (strings.TrimSpace text) 0x2C (by omega)
      unfold loadBankLine lineRecord
      simp only [if_neg hempty, hfew, ne_eq, not_false_eq_true, if_true]
      rw [if_neg (fun h => hcount h.2)]
      rfl
/-! ## The loader as a function of the lines -/

theorem rangeRunes_skip (s : Str) :
    ∀ k : Nat, rangeRunes k s = rangeRunes 0 (s.drop k) := by
  induction s with
  | nil => intro k; simp [rangeRunes]
  | cons b rest ih =>
    intro k
    cases k with
    | zero => rfl
    | succ k => rw [rangeRunes, ih k, List.drop_succ_cons]

/-- A line whose characters are all white space is empty after trimming. -/
theorem trimSpace_all_space :
    ∀ (n : Nat) (s : Str), s.length = n → (rangeRunes 0 s).all unicode.IsSpace = true →
      strings.TrimSpace s = [] := by
  have left : ∀ (n : Nat) (s : Str), s.length = n →
      (rangeRunes 0 s).all unicode.IsSpace = true →
      strings.TrimLeftFunc s unicode.IsSpace = [] := by
    intro n
    induction n using Nat.strong_induction_on with
    | _ n ih =>
      intro s hs hall
      cases s with
      | nil => exact trimLeftFunc_nil _
      | cons b rest =>
        have hpos := decodeRune_size_pos b rest
        rw [rangeRunes, List.all_cons, Bool.and_eq_true, rangeRunes_skip] at hall
        rw [trimLeftFunc_cons, if_neg (by rw [hall.1]; simp)]
        have hdrop : (b :: rest).drop (utf8.DecodeRuneInString (b :: rest)).2
            = rest.drop ((utf8.DecodeRuneInString (b :: rest)).2 - 1) := by
          obtain ⟨sz, hsz⟩ : ∃ sz, (utf8.DecodeRuneInString (b :: rest)).2 = sz + 1 :=
            ⟨(utf8.DecodeRuneInString (b :: rest)).2 - 1, by omega⟩
          rw [hsz]
          simp
        rw [hdrop]
        refine ih _ ?_ _ rfl hall.2
        rw [List.length_drop, ← hs]
        simp only [List.length_cons]
        omega
  intro n s hs hall
  rw [trimSpace_eq_trimFunc, strings.TrimFunc, left n s hs hall, trimRightFunc_nil]

theorem foldl_loadBankLine_eq (lines : List Str) :
    lines.foldl loadBankLine [] = lines.filterMap lineRecord := by
  induction lines with
  | nil => rfl
  | cons l ls ih =>
    rw [List.foldl_cons, foldl_loadBankLine ls (loadBankLine [] l), ih,
      loadBankLine_eq_lineRecord l, List.filterMap_cons]
    cases lineRecord l <;> simp

/-- C14: the table the loader returns is exactly the sequence of the records
of the lines that are non-empty after trimming and yield three fields, in the
order of the lines, and the error is the one of the scanner.  A line that is
empty after trimming, that is made of white space only, or that has fewer than
two commas has no record, and the table is the one loaded without that
line. -/
theorem loadBankData_eq_filterMap (lines : List Str) (e : Option ScanError) :
    loadBankData lines e = (lines.filterMap lineRecord, e) ∧
      ∀ text : Str,
        (strings.TrimSpace text = [] ∨ (rangeRunes 0 text).all unicode.IsSpace = true ∨
            (strings.TrimSpace text).count 0x2C < 2) →
          lineRecord text = none ∧
            ∀ pre post : List Str,
              loadBankData (pre ++ text :: post) e = loadBankData (pre ++ post) e := by
  have hall : ∀ ls : List Str, loadBankData ls e = (ls.filterMap lineRecord, e) := by
    intro ls
    unfold loadBankData
    rw [foldl_loadBankLine_eq]
  refine ⟨hall lines, ?_⟩
  intro text h
  have hnone : lineRecord text = none := by
    unfold lineRecord
    rcases h with h | h | h
    · rw [if_neg (fun hc => hc.1 h)]
    · rw [if_neg (fun hc => hc.1 (trimSpace_all_space _ text rfl h))]
    · rw [if_neg (fun hc => by omega)]
  refine ⟨hnone, fun pre post => ?_⟩
  rw [hall, hall, List.filterMap_append, List.filterMap_append, List.filterMap_cons, hnone]

/-- C14, witness: an empty line, a line of white space, a line with one comma
and a line without comma between three lines that have records. -/
theorem loadBankData_eq_filterMap_witness :
    loadBankData [str "A,1,2", str "", str " \t ", str "B,3", str "Б , 5 , 7", str "C",
        str "X,1,2,3"] none
      = ([⟨str "A", 1, 2⟩, ⟨str "Б", 5, 7⟩, ⟨str "X", 1, 0⟩], none) ∧
    (lineRecord (str " \t ") = none ∧
      loadBankData ([str "A,1,2"] ++ str " \t " :: [str "Б , 5 , 7"]) none
        = loadBankData ([str "A,1,2"] ++ [str "Б , 5 , 7"]) none) :=
  ⟨(loadBankData_eq_filterMap _ none).1.trans (by decide),
    ((loadBankData_eq_filterMap [] none).2 (str " \t ") (Or.inr (Or.inl (by decide)))).1,
    ((loadBankData_eq_filterMap [] none).2 (str " \t ") (Or.inr (Or.inl (by decide)))).2
      [str "A,1,2"] [str "Б , 5 , 7"]⟩

/-! ## The interaction loop -/

theorem loopBodyWith_nil (fs : Callees) (st : LoopState) :
    loopBodyWith fs [] st = some (.stop, st.print farewellMsg) := by
  simp [loopBodyWith]

theorem loopBodyWith_format (fs : Callees) (input : Str) (st : LoopState) (h : input ≠ [])
    (hi : fs.validateInput input = some false) :
    loopBodyWith fs input st = some (.again, st.print formatMsg) := by
  simp [loopBodyWith, h, hi]

theorem loopBodyWith_luhn (fs : Callees) (input : Str) (st : LoopState) (h : input ≠ [])
    (hi : fs.validateInput input = some true) (hl : fs.validateLuhn input = some false) :
    loopBodyWith fs input st = some (.again, st.print luhnMsg) := by
  simp [loopBodyWith, h, hi, hl]

theorem loopBodyWith_success (fs : Callees) (input : Str) (st : LoopState) (bin : Int)
    (name : Str) (h : input ≠ [])
    (hi : fs.validateInput input = some true) (hl : fs.validateLuhn input = some true)
    (hb : fs.extractBIN input = some bin) (hn : fs.identifyBank bin st.banks = some name) :
    loopBodyWith fs input st
      = some (.again, ((st.print validMsg).print (bankMsg name)).print (str "\n")) := by
  simp [loopBodyWith, h, hi, hl, hb, hn]

/-- The body of the loop on the functions of `main.go`, outcome by outcome. -/
theorem loopBody_eq (input : Str) (st : LoopState) :
    loopBody input st
      = some (if input = [] then (.stop, st.print farewellMsg)
          else if validateInput input = false then (.again, st.print formatMsg)
          else if validateLuhn input = false then (.again, st.print luhnMsg)
          else (.again,
            ((st.print validMsg).print
              (bankMsg (identifyBank (extractBIN input) st.banks))).print (str "\n"))) := by
  unfold loopBody
  by_cases h : input = []
  · rw [if_pos h, h, loopBodyWith_nil]
  · rw [if_neg h]
    cases hi : validateInput input with
    | false =>
      rw [if_pos rfl]
      exact loopBodyWith_format mainCallees input st h (by simp [mainCallees, hi])
    | true =>
      rw [if_neg (by simp)]
      cases hl : validateLuhn input with
      | false =>
        rw [if_pos rfl]
        exact loopBodyWith_luhn mainCallees input st h (by simp [mainCallees, hi])
          (by simp [mainCallees, hl])
      | true =>
        rw [if_neg (by simp)]
        exact loopBodyWith_success mainCallees input st (extractBIN input)
          (identifyBank (extractBIN input) st.banks) h (by simp [mainCallees, hi])
          (by simp [mainCallees, hl]) (by simp [mainCallees]) (by simp [mainCallees])

theorem bankMsg_eq (name : Str) : bankMsg name = str "🏦 Банк: " ++ name ++ str "\n" := by
  have h : str "🏦 Банк:" ++ str " " = str "🏦 Банк: " := by decide
  unfold bankMsg
  rw [h]

theorem bankMsg_injective (n1 n2 : Str)
    (h : str "🏦 Банк: " ++ n1 ++ str "\n" = str "🏦 Банк: " ++ n2 ++ str "\n") : n1 = n2 :=
  List.append_cancel_left (List.append_cancel_right h)

theorem loopBodyWith_state (fs : Callees) (input : Str) (st : LoopState) (c : Control)
    (st' : LoopState) (h : loopBodyWith fs input st = some (c, st')) :
    st'.banks = st.banks ∧ (c = .again ↔ input ≠ []) := by
  unfold loopBodyWith at h
  by_cases h0 : input = []
  · rw [if_pos h0] at h
    simp only [Option.some.injEq, Prod.mk.injEq] at h
    obtain ⟨hc, hs⟩ := h
    rw [← hc, ← hs]
    simp [LoopState.print, h0]
  · rw [if_neg h0] at h
    cases hi : fs.validateInput input with
    | none => rw [hi] at h; simp at h
    | some valid =>
      rw [hi] at h
      simp only [] at h
      cases valid with
      | false =>
        simp only [Bool.not_false, if_true, Option.some.injEq, Prod.mk.injEq] at h
        obtain ⟨hc, hs⟩ := h
        rw [← hc, ← hs]
        simp [LoopState.print, h0]
      | true =>
        simp only [Bool.not_true, Bool.false_eq_true, if_false] at h
        cases hl : fs.validateLuhn input with
        | none => rw [hl] at h; simp at h
        | some luhn =>
          rw [hl] at h
          simp only [] at h
          cases luhn with
          | false =>
            simp only [Bool.not_false, if_true, Option.some.injEq, Prod.mk.injEq] at h
            obtain ⟨hc, hs⟩ := h
            rw [← hc, ← hs]
            simp [LoopState.print, h0]
          | true =>
            simp only [Bool.not_true, Bool.false_eq_true, if_false] at h
            cases hb : fs.extractBIN input with
            | none => rw [hb] at h; simp at h
            | some bin =>
              rw [hb] at h
              simp only [] at h
              cases hn : fs.identifyBank bin st.banks with
              | none => rw [hn] at h; simp at h
              | some name =>
                rw [hn] at h
                simp only [Option.some.injEq, Prod.mk.injEq] at h
                obtain ⟨hc, hs⟩ := h
                rw [← hc, ← hs]
                simp [LoopState.print, h0]

/-- C11: one iteration of the interaction loop, as a function of the trimmed
input and of the state, read over callees that may fail to return, so that an
iteration completes only if every call it evaluates returns.  Empty input
prints the farewell and ends the loop whatever the callees do.  A non-empty
input that `validateInput` rejects prints the format message and goes on
whatever `validateLuhn`, `extractBIN` and `identifyBank` do: none of them is
evaluated.  An input that `validateInput` accepts and `validateLuhn` rejects
prints the Luhn message whatever `extractBIN` and `identifyBank` do.  When both
accept, `extractBIN` and `identifyBank` are evaluated and the bank line holds
the name returned for the extracted BIN on the table.  Each call that is
reached is evaluated.  On the functions of `main.go` the iteration always
completes, the bank line reports exactly `identifyBank (extractBIN input)`,
the success lines appear only when both checks are true, the four first lines
are pairwise different, the bank table is never changed, every non-empty input
goes back to prompting, and after an empty input no further line is read. -/
theorem loopBody_outcomes (fs : Callees) (input : Str) (st : LoopState) :
    loopBodyWith fs [] st
        = some (.stop,
            ⟨st.banks, st.printed ++
              [str "Программа завершена. Спасибо за использование! 👋\n"]⟩) ∧
      (input ≠ [] → fs.validateInput input = some false →
        loopBodyWith fs input st
          = some (.again,
              ⟨st.banks, st.printed ++
                [str "❌ Ошибка: номер карты должен содержать только цифры (13–19 символов).\n"]⟩)) ∧
      (input ≠ [] → fs.validateInput input = some true →
        fs.validateLuhn input = some false →
        loopBodyWith fs input st
          = some (.again,
              ⟨st.banks, st.printed ++
                [str "❌ Ошибка: номер карты не прошёл проверку по алгоритму Луна.\n"]⟩)) ∧
      (∀ (bin : Int) (name : Str), input ≠ [] → fs.validateInput input = some true →
        fs.validateLuhn input = some true → fs.extractBIN input = some bin →
        fs.identifyBank bin st.banks = some name →
        loopBodyWith fs input st
          = some (.again,
              ⟨st.banks, st.printed ++
                [str "✅ Номер карты валиден.\n", str "🏦 Банк: " ++ name ++ str "\n",
                 str "\n"]⟩)) ∧
      (input ≠ [] → fs.validateInput input = none → loopBodyWith fs input st = none) ∧
      (input ≠ [] → fs.validateInput input = some true → fs.validateLuhn input = none →
        loopBodyWith fs input st = none) ∧
      (input ≠ [] → fs.validateInput input = some true → fs.validateLuhn input = some true →
        fs.extractBIN input = none → loopBodyWith fs input st = none) ∧
      (∀ bin : Int, input ≠ [] → fs.validateInput input = some true →
        fs.validateLuhn input = some true → fs.extractBIN input = some bin →
        fs.identifyBank bin st.banks = none → loopBodyWith fs input st = none) ∧
      loopBody input st
        = some (
            if input = [] then
              (.stop,
                ⟨st.banks, st.printed ++
                  [str "Программа завершена. Спасибо за использование! 👋\n"]⟩)
            else if validateInput input = false then
              (.again,
                ⟨st.banks, st.printed ++
                  [str "❌ Ошибка: номер карты должен содержать только цифры (13–19 символов).\n"]⟩)
            else if validateLuhn input = false then
              (.again,
                ⟨st.banks, st.printed ++
                  [str "❌ Ошибка: номер карты не прошёл проверку по алгоритму Луна.\n"]⟩)
            else
              (.again,
                ⟨st.banks, st.printed ++
                  [str "✅ Номер карты валиден.\n",
                   str "🏦 Банк: " ++ identifyBank (extractBIN input) st.banks ++ str "\n",
                   str "\n"]⟩)) ∧
      (∀ (name : Str) (c : Control) (st' : LoopState), loopBody input st = some (c, st') →
        st'.printed = st.printed ++
          [str "✅ Номер карты валиден.\n", str "🏦 Банк: " ++ name ++ str "\n", str "\n"] →
        input ≠ [] ∧ validateInput input = true ∧ validateLuhn input = true ∧
          name = identifyBank (extractBIN input) st.banks) ∧
      (str "Программа завершена. Спасибо за использование! 👋\n"
          ≠ str "❌ Ошибка: номер карты должен содержать только цифры (13–19 символов).\n" ∧
        str "Программа завершена. Спасибо за использование! 👋\n"
          ≠ str "❌ Ошибка: номер карты не прошёл проверку по алгоритму Луна.\n" ∧
        str "Программа завершена. Спасибо за использование! 👋\n"
          ≠ str "✅ Номер карты валиден.\n" ∧
        str "❌ Ошибка: номер карты должен содержать только цифры (13–19 символов).\n"
          ≠ str "❌ Ошибка: номер карты не прошёл проверку по алгоритму Луна.\n" ∧
        str "❌ Ошибка: номер карты должен содержать только цифры (13–19 символов).\n"
          ≠ str "✅ Номер карты валиден.\n" ∧
        str "❌ Ошибка: номер карты не прошёл проверку по алгоритму Луна.\n"
          ≠ str "✅ Номер карты валиден.\n") ∧
      (∀ (c : Control) (st' : LoopState), loopBodyWith fs input st = some (c, st') →
        st'.banks = st.banks ∧ (c = .again ↔ input ≠ [])) ∧
      (∀ (line : Str) (rest : List Str), strings.TrimSpace line = input →
        mainLoop (line :: rest) st
          = if input = [] then
              some ⟨st.banks, st.printed ++
                [str "Введите номер карты (Enter для выхода): ",
                 str "Программа завершена. Спасибо за использование! 👋\n"]⟩
            else if validateInput input = false then
              mainLoop rest ⟨st.banks, st.printed ++
                [str "Введите номер карты (Enter для выхода): ",
                 str "❌ Ошибка: номер карты должен содержать только цифры (13–19 символов).\n"]⟩
            else if validateLuhn input = false then
              mainLoop rest ⟨st.banks, st.printed ++
                [str "Введите номер карты (Enter для выхода): ",
                 str "❌ Ошибка: номер карты не прошёл проверку по алгоритму Луна.\n"]⟩
            else
              mainLoop rest ⟨st.banks, st.printed ++
                [str "Введите номер карты (Enter для выхода): ",
                 str "✅ Номер карты валиден.\n",
                 str "🏦 Банк: " ++ identifyBank (extractBIN input) st.banks ++ str "\n",
                 str "\n"]⟩) := by
  have hF : farewellMsg = str "Программа завершена. Спасибо за использование! 👋\n" := rfl
  have hE1 : formatMsg
      = str "❌ Ошибка: номер карты должен содержать только цифры (13–19 символов).\n" := rfl
  have hE2 : luhnMsg
      = str "❌ Ошибка: номер карты не прошёл проверку по алгоритму Луна.\n" := rfl
  have hV : validMsg = str "✅ Номер карты валиден.\n" := rfl
  have hP : promptMsg = str "Введите номер карты (Enter для выхода): " := rfl
  have hprog : ∀ s : LoopState, loopBody input s
      = some (
          if input = [] then
            (.stop,
              ⟨s.banks, s.printed ++
                [str "Программа завершена. Спасибо за использование! 👋\n"]⟩)
          else if validateInput input = false then
            (.again,
              ⟨s.banks, s.printed ++
                [str "❌ Ошибка: номер карты должен содержать только цифры (13–19 символов).\n"]⟩)
          else if validateLuhn input = false then
            (.again,
              ⟨s.banks, s.printed ++
                [str "❌ Ошибка: номер карты не прошёл проверку по алгоритму Луна.\n"]⟩)
          else
            (.again,
              ⟨s.banks, s.printed ++
                [str "✅ Номер карты валиден.\n",
                 str "🏦 Банк: " ++ identifyBank (extractBIN input) s.banks ++ str "\n",
                 str "\n"]⟩)) := by
    intro s
    rw [loopBody_eq, ← hF, ← hE1, ← hE2, ← hV, ← bankMsg_eq]
    simp [LoopState.print]
  have len1 : ∀ (m x y z : Str), st.printed ++ [m] ≠ st.printed ++ [x, y, z] := by
    intro m x y z e
    have := congrArg List.length e
    simp at this
  refine ⟨?_, ?_, ?_, ?_, ?_, ?_, ?_, ?_, hprog st, ?_, ?_, ?_, ?_⟩
  · rw [loopBodyWith_nil, ← hF]
    rfl
  · intro h hi
    rw [loopBodyWith_format fs input st h hi, ← hE1]
    rfl
  · intro h hi hl
    rw [loopBodyWith_luhn fs input st h hi hl, ← hE2]
    rfl
  · intro bin name h hi hl hb hn
    rw [loopBodyWith_success fs input st bin name h hi hl hb hn, ← hV, ← bankMsg_eq]
    simp [LoopState.print]
  · intro h hi
    simp [loopBodyWith, h, hi]
  · intro h hi hl
    simp [loopBodyWith, h, hi, hl]
  · intro h hi hl hb
    simp [loopBodyWith, h, hi, hl, hb]
  · intro bin h hi hl hb hn
    simp [loopBodyWith, h, hi, hl, hb, hn]
  · intro name c st' hres hpr
    rw [hprog st] at hres
    by_cases h : input = []
    · rw [if_pos h] at hres
      simp only [Option.some.injEq, Prod.mk.injEq] at hres
      rw [← hres.2] at hpr
      exact absurd hpr (len1 _ _ _ _)
    · rw [if_neg h] at hres
      cases hi : validateInput input with
      | false =>
        rw [hi, if_pos rfl] at hres
        simp only [Option.some.injEq, Prod.mk.injEq] at hres
        rw [← hres.2] at hpr
        exact absurd hpr (len1 _ _ _ _)
      | true =>
        rw [hi, if_neg (by simp)] at hres
        cases hl : validateLuhn input with
        | false =>
          rw [hl, if_pos rfl] at hres
          simp only [Option.some.injEq, Prod.mk.injEq] at hres
          rw [← hres.2] at hpr
          exact absurd hpr (len1 _ _ _ _)
        | true =>
          rw [hl, if_neg (by simp)] at hres
          simp only [Option.some.injEq, Prod.mk.injEq] at hres
          rw [← hres.2] at hpr
          have e := List.append_cancel_left hpr
          simp only [List.cons.injEq, and_true, true_and] at e
          exact ⟨h, rfl, rfl, (bankMsg_injective _ _ e).symm⟩
  · refine ⟨by decide, by decide, by decide, by decide, by decide, by decide⟩
  · intro c st' h
    exact loopBodyWith_state fs input st c st' h
  · intro line rest hline
    have hbody := hprog (st.print promptMsg)
    unfold loopBody at hbody
    unfold mainLoop
    rw [mainLoopWith]
    simp only [getUserInput, hline]
    rw [hbody]
    by_cases h : input = []
    · simp only [if_pos h]
      rw [hP]
      simp [LoopState.print]
    · simp only [if_neg h]
      cases hi : validateInput input with
      | false =>
        simp only [if_true]
        rw [hP]
        simp [LoopState.print]
      | true =>
        cases hl : validateLuhn input with
        | false =>
          simp only [Bool.true_eq_false, if_false, if_true]
          rw [hP]
          simp [LoopState.print]
        | true =>
          simp only [Bool.true_eq_false, if_false]
          rw [hP]
          simp [LoopState.print]

/-- C11, witness: the input `123` gives the format message although of the
callees only `validateInput` returns; the empty input ends the loop although
no callee returns; on the functions of `main.go` the card number
`4539578763621486` is reported with the bank of its BIN 453957, and a run over
three lines stops reading at the empty one. -/
theorem loopBody_outcomes_witness :
    loopBodyWith onlyValidateInput (str "123") ⟨overlapTable, []⟩
        = some (.again,
            ⟨overlapTable,
              [str "❌ Ошибка: номер карты должен содержать только цифры (13–19 символов).\n"]⟩) ∧
      loopBodyWith noCallee [] ⟨overlapTable, []⟩
        = some (.stop,
            ⟨overlapTable, [str "Программа завершена. Спасибо за использование! 👋\n"]⟩) ∧
      loopBodyWith noCallee (str "123") ⟨overlapTable, []⟩ = none ∧
      loopBody (str "4539578763621486") ⟨[⟨str "BankV", 400000, 499999⟩], []⟩
        = some (.again,
            ⟨[⟨str "BankV", 400000, 499999⟩],
              [str "✅ Номер карты валиден.\n", str "🏦 Банк: BankV\n", str "\n"]⟩) ∧
      mainLoop [str "123\n", str "\n", str "4539578763621486\n"] ⟨overlapTable, []⟩
        = some ⟨overlapTable,
            [str "Введите номер карты (Enter для выхода): ",
             str "❌ Ошибка: номер карты должен содержать только цифры (13–19 символов).\n",
             str "Введите номер карты (Enter для выхода): ",
             str "Программа завершена. Спасибо за использование! 👋\n"]⟩ :=
  ⟨((loopBody_outcomes onlyValidateInput (str "123") ⟨overlapTable, []⟩).2.1
      (by decide) (by decide)).trans (by decide),
    ((loopBody_outcomes noCallee [] ⟨overlapTable, []⟩).1).trans (by decide),
    (loopBody_outcomes noCallee (str "123") ⟨overlapTable, []⟩).2.2.2.2.1 (by decide) rfl,
    ((loopBody_outcomes mainCallees (str "4539578763621486")
      ⟨[⟨str "BankV", 400000, 499999⟩], []⟩).2.2.2.2.2.2.2.2.1).trans (by decide),
    by decide⟩
